import Mathlib

/-! Blocked matrix multiplication (`mtxMult.go`).

A shallow embedding of `src/go/mtxMult.go`: the matrix kernels
`allOnesMatrix`, `getSlice`, `getSlices`, `mergeSlices`, `stMultiply`,
`addMultiply` and `mtMultiply`, the text functions `stringMatrix` and
`toString`, and the command-line validation of `main`.

* A Go `matrix` (`[][]int`) is a list of rows of integers.
* Every slice index expression is checked: an index out of range is the fault
  `Fault.indexOutOfRange`, an integer division by zero is `Fault.divideByZero`;
  both carry the function in which they happen.  A function of the source
  becomes a function into `Except Fault _`.
* A counted loop `for i := 0; i < n; i++` is `forLoop`, which threads the
  variables the loop body assigns through the iterations and stops at the
  first fault.
* Go's `int` is a fixed-width two's-complement word.  The kernels are
  parametrised by the word modulus `m`: `m = 2 ^ 64` is Go's `int` on a 64-bit
  platform, `m = 2 ^ 32` on a 32-bit one, and `m = 0` gives the unbounded
  integers (`x % 0 = x`).
* In `mtMultiply` the `go` statements are run one at a time in increasing `k`,
  each to completion. Two further models cover what this leaves out: `wgStep`
  is the `sync.WaitGroup` protocol of the block loops under every
  interleaving, and `runSchedule` interleaves the memory accesses of the tasks
  of one block.
* Sizes, indices and the tile size `s` of the kernels are natural numbers; the
  arguments of `main` are integers of either sign (`mainValidation`).
-/

namespace MtxMult

/-! ## Data model -/

/-- The Go type `matrix = [][]int`. -/
abbrev matrix := List (List Int)

/-- The functions of the source in which a run-time fault can happen. -/
inductive Site where
  | allOnesMatrix
  | getSlice
  | getSlices
  | mergeSlices
  | stMultiply
  | addMultiply
  | mtMultiply
  | main
  | stringMatrix
  | toString
  deriving DecidableEq, Repr

/-- The run-time panics of the Go code. -/
inductive Fault where
  | indexOutOfRange (site : Site)
  | divideByZero (site : Site)
  deriving DecidableEq, Repr

/-! ## Machine integers -/

/-- The two's-complement representative of `x` for the word modulus `m`:
the value in `[-(m/2), m - m/2)` congruent to `x`. For `m = 0` it is `x`. -/
def wrap (m : Nat) (x : Int) : Int :=
  (x + ((m / 2 : Nat) : Int)) % (m : Int) - ((m / 2 : Nat) : Int)

/-- Go's `a + b` on `int`. -/
def addW (m : Nat) (a b : Int) : Int := wrap m (a + b)

/-- Go's `a * b` on `int`. -/
def mulW (m : Nat) (a b : Int) : Int := wrap m (a * b)

/-- The integer `x` is representable in a word of modulus `m`. -/
def inRange (m : Nat) (x : Int) : Prop :=
  m = 0 ∨ (-((m / 2 : Nat) : Int) ≤ x ∧ x < (m : Int) - ((m / 2 : Nat) : Int))

instance (m : Nat) (x : Int) : Decidable (inRange m x) := by
  unfold inRange; infer_instance

deriving instance DecidableEq for Except

/-! ## Slices, indexing, loops -/

/-- The index expression `g[i][j]` read as a value. -/
def readCell {α : Type} (site : Site) (g : List (List α)) (i j : Nat) : Except Fault α :=
  match g[i]? with
  | none => .error (.indexOutOfRange site)
  | some row =>
    match row[j]? with
    | none => .error (.indexOutOfRange site)
    | some v => .ok v

/-- The assignment `g[i][j] = v`. -/
def writeCell {α : Type} (site : Site) (g : List (List α)) (i j : Nat) (v : α) :
    Except Fault (List (List α)) :=
  match g[i]? with
  | none => .error (.indexOutOfRange site)
  | some row =>
    if j < row.length then .ok (g.set i (row.set j v))
    else .error (.indexOutOfRange site)

/-- The assignment `g[i] = row`. -/
def writeRow {α : Type} (site : Site) (g : List (List α)) (i : Nat) (row : List α) :
    Except Fault (List (List α)) :=
  if i < g.length then .ok (g.set i row) else .error (.indexOutOfRange site)

/-- The integer division `a / b` of Go on non-negative operands. -/
def goDiv (site : Site) (a b : Nat) : Except Fault Nat :=
  if b = 0 then .error (.divideByZero site) else .ok (a / b)

/-- The integer remainder `a % b` of Go on non-negative operands. -/
def goMod (site : Site) (a b : Nat) : Except Fault Nat :=
  if b = 0 then .error (.divideByZero site) else .ok (a % b)

/-- The loop `for i := 0; i < n; i++ { body }`: `forLoop body n st` runs the
iterations `0, ..., n - 1` in this order from the state `st`. -/
def forLoop {σ : Type} (body : Nat → σ → Except Fault σ) : Nat → σ → Except Fault σ
  | 0, st => .ok st
  | k + 1, st =>
    match forLoop body k st with
    | .ok st' => body k st'
    | .error e => .error e

/-- Go's `make([]int, n)`: `n` zeroes. -/
def makeInts (n : Nat) : List Int := List.replicate n 0

/-- Go's `make(matrix, n)` and `make([]matrix, n)`: `n` nil slices. -/
def makeNils {α : Type} (n : Nat) : List (List α) := List.replicate n []

/-! ## The functions of the source

Every loop body is a definition of its own, named after its function; the
variables a body assigns (the slice under construction, the running counters
`row` and `col`) are the state threaded by `forLoop`. -/

/-- The body of the inner loop of `allOnesMatrix` (line 52). -/
def allOnesInner (i j : Nat) (mtx : matrix) : Except Fault matrix :=
  writeCell .allOnesMatrix mtx i j 1

/-- The body of the outer loop of `allOnesMatrix` (lines 50-53). -/
def allOnesOuter (n i : Nat) (mtx : matrix) : Except Fault matrix := do
  let mtx ← writeRow .allOnesMatrix mtx i (makeInts n)
  forLoop (allOnesInner i) n mtx

/-- Source `allOnesMatrix` (lines 47-56). -/
def allOnesMatrix (n : Nat) : Except Fault matrix :=
  forLoop (allOnesOuter n) n (makeNils n)

/-- The body of the inner loop of `getSlice` (lines 103-104); the state is
the tile and the counter `col`. -/
def getSliceInner (mtx : matrix) (row newMtxRow newMtxCol : Nat)
    (st : matrix × Nat) : Except Fault (matrix × Nat) := do
  let v ← readCell .getSlice mtx row st.2
  let slc ← writeCell .getSlice st.1 newMtxRow newMtxCol v
  pure (slc, st.2 + 1)

/-- The body of the outer loop of `getSlice` (lines 100-106); the state is
the tile and the counter `row`. -/
def getSliceOuter (mtx : matrix) (j s newMtxRow : Nat)
    (st : matrix × Nat) : Except Fault (matrix × Nat) := do
  let slc ← writeRow .getSlice st.1 newMtxRow (makeInts s)
  let st' ← forLoop (getSliceInner mtx st.2 newMtxRow) s (slc, j * s)
  pure (st'.1, st.2 + 1)

/-- Source `getSlice` (lines 96-109). -/
def getSlice (mtx : matrix) (i j s : Nat) : Except Fault matrix := do
  let st ← forLoop (getSliceOuter mtx j s) s (makeNils s, i * s)
  pure st.1

/-- The body of the inner loop of `getSlices` (line 120). -/
def getSlicesInner (mtx : matrix) (s i j : Nat)
    (slices : List (List matrix)) : Except Fault (List (List matrix)) := do
  let tile ← getSlice mtx i j s
  writeCell .getSlices slices i j tile

/-- The body of the outer loop of `getSlices` (lines 118-121). -/
def getSlicesOuter (mtx : matrix) (s b i : Nat)
    (slices : List (List matrix)) : Except Fault (List (List matrix)) := do
  let slices ← writeRow .getSlices slices i (makeNils b)
  forLoop (getSlicesInner mtx s i) b slices

/-- Source `getSlices` (lines 114-124). -/
def getSlices (mtx : matrix) (s : Nat) : Except Fault (List (List matrix)) := do
  let n := mtx.length
  let b ← goDiv .getSlices n s
  forLoop (getSlicesOuter mtx s b) b (makeNils b)

/-- The body of the inner loop of `mergeSlices` (lines 136-138) at `(i, j)`;
the state is the destination and the counter `col`. The operand `mtx[i]` of
the left-hand side is evaluated first, then the right-hand side, then the
store at column `j`. -/
def mergeSlicesInner (slices : List (List matrix)) (s i row j : Nat)
    (st : matrix × Nat) : Except Fault (matrix × Nat) :=
  match st.1[i]? with
  | none => .error (.indexOutOfRange .mergeSlices)
  | some _ => do
    let bi ← goDiv .mergeSlices i s
    let bj ← goDiv .mergeSlices j s
    let tile ← readCell .mergeSlices slices bi bj
    let v ← readCell .mergeSlices tile row st.2
    let mtx ← writeCell .mergeSlices st.1 i j v
    let col ← goMod .mergeSlices (st.2 + 1) s
    pure (mtx, col)

/-- The body of the outer loop of `mergeSlices` (lines 134-141) at `i`; the
state is the destination and the counter `row`. -/
def mergeSlicesOuter (slices : List (List matrix)) (n s i : Nat)
    (st : matrix × Nat) : Except Fault (matrix × Nat) := do
  let st' ← forLoop (mergeSlicesInner slices s i st.2) n (st.1, 0)
  let row ← goMod .mergeSlices (st.2 + 1) s
  pure (st'.1, row)

/-- Source `mergeSlices` (lines 129-143). The destination is updated in
place in the source; here the updated destination is returned. -/
def mergeSlices (mtx : matrix) (slices : List (List matrix)) : Except Fault matrix := do
  let n := mtx.length
  let tile ← readCell .mergeSlices slices 0 0
  let s := tile.length
  let st ← forLoop (mergeSlicesOuter slices n s) n (mtx, 0)
  pure st.1

/-- The statement `c[i][j] += a[i][k] * b[k][j]` of both kernels. -/
def mulAddCell (m : Nat) (site : Site) (a b : matrix) (i j k : Nat) (c : matrix) :
    Except Fault matrix := do
  let old ← readCell site c i j
  let x ← readCell site a i k
  let y ← readCell site b k j
  writeCell site c i j (addW m old (mulW m x y))

/-- The `j` loop of `stMultiply` (lines 153-157). -/
def stMultiplyInner (m : Nat) (mtxA mtxB : matrix) (n i j : Nat)
    (newMtx : matrix) : Except Fault matrix :=
  forLoop (mulAddCell m .stMultiply mtxA mtxB i j) n newMtx

/-- The body of the outer loop of `stMultiply` (lines 152-157). -/
def stMultiplyOuter (m : Nat) (mtxA mtxB : matrix) (n i : Nat)
    (newMtx : matrix) : Except Fault matrix := do
  let newMtx ← writeRow .stMultiply newMtx i (makeInts n)
  forLoop (stMultiplyInner m mtxA mtxB n i) n newMtx

/-- Source `stMultiply` (lines 148-160). -/
def stMultiply (m : Nat) (mtxA mtxB : matrix) : Except Fault matrix :=
  let n := mtxA.length
  forLoop (stMultiplyOuter m mtxA mtxB n) n (makeNils n)

/-- The three matrices an `addMultiply` call works on: the receiver `mtxC`
and the arguments `mtxA`, `mtxB`. They are distinct objects in every call of
the source (tiles made by `getSlice`). -/
structure Operands where
  mtxC : matrix
  mtxA : matrix
  mtxB : matrix
  deriving DecidableEq, Repr

/-- The body of the `k` loop of `addMultiply` (line 171). -/
def addMultiplyCell (m : Nat) (i j k : Nat) (ops : Operands) : Except Fault Operands := do
  let c ← mulAddCell m .addMultiply ops.mtxA ops.mtxB i j k ops.mtxC
  pure { ops with mtxC := c }

/-- The body of the `j` loop of `addMultiply` (lines 170-172). -/
def addMultiplyInner (m : Nat) (n i j : Nat) (ops : Operands) : Except Fault Operands :=
  forLoop (addMultiplyCell m i j) n ops

/-- The body of the `i` loop of `addMultiply` (lines 169-173). -/
def addMultiplyOuter (m : Nat) (n i : Nat) (ops : Operands) : Except Fault Operands :=
  forLoop (addMultiplyInner m n i) n ops

/-- Source `addMultiply` (lines 165-175), run to completion. -/
def addMultiply (m : Nat) (ops : Operands) : Except Fault Operands :=
  let n := ops.mtxA.length
  forLoop (addMultiplyOuter m n) n ops

/-- One task `go slicesC[i][j].addMultiply(slicesA[i][k], slicesB[k][j])` of
`mtMultiply` (line 200), run to completion: the three tiles are looked up in
`mtMultiply`, and the receiver tile of the grid `slicesC` is the one updated. -/
def mtTask (m : Nat) (slicesA slicesB : List (List matrix)) (i j k : Nat)
    (slicesC : List (List matrix)) : Except Fault (List (List matrix)) := do
  let tileC ← readCell .mtMultiply slicesC i j
  let tileA ← readCell .mtMultiply slicesA i k
  let tileB ← readCell .mtMultiply slicesB k j
  let ops ← addMultiply m { mtxC := tileC, mtxA := tileA, mtxB := tileB }
  writeCell .mtMultiply slicesC i j ops.mtxC

/-- The tasks of the output block `(i, j)` (lines 198-202), one at a time in
increasing `k`. -/
def mtBlock (m : Nat) (slicesA slicesB : List (List matrix)) (b i j : Nat)
    (slicesC : List (List matrix)) : Except Fault (List (List matrix)) :=
  forLoop (mtTask m slicesA slicesB i j) b slicesC

/-- The body of the outer block loop of `mtMultiply` (lines 197-203). -/
def mtBlockRow (m : Nat) (slicesA slicesB : List (List matrix)) (b i : Nat)
    (slicesC : List (List matrix)) : Except Fault (List (List matrix)) :=
  forLoop (mtBlock m slicesA slicesB b i) b slicesC

/-- The body of the allocation loop of `mtMultiply` (line 189). -/
def mtAlloc (n i : Nat) (mtxC : matrix) : Except Fault matrix :=
  writeRow .mtMultiply mtxC i (makeInts n)

/-- Source `mtMultiply` (lines 180-209), the tasks of a block run one at a
time in increasing `k`. -/
def mtMultiply (m : Nat) (mtxA mtxB : matrix) (s : Nat) : Except Fault matrix := do
  let slicesA ← getSlices mtxA s
  let slicesB ← getSlices mtxB s
  let n := mtxA.length
  let mtxC ← forLoop (mtAlloc n) n (makeNils n)
  let slicesC ← getSlices mtxC s
  let b ← goDiv .mtMultiply n s
  let slicesC ← forLoop (mtBlockRow m slicesA slicesB b) b slicesC
  mergeSlices mtxC slicesC

/-! ## Shapes and cells -/

/-- The cell `g[i][j]`, with the default value outside the slice. -/
def cell {α : Type} [Inhabited α] (g : List (List α)) (i j : Nat) : α :=
  (g.getD i []).getD j default

/-- The length of row `i`. -/
def rowLen {α : Type} (g : List (List α)) (i : Nat) : Nat := (g.getD i []).length

/-- The matrix has `n` rows of `n` cells each. -/
def isSquare (n : Nat) (mtx : matrix) : Prop :=
  mtx.length = n ∧ ∀ row ∈ mtx, row.length = n

instance (n : Nat) (mtx : matrix) : Decidable (isSquare n mtx) := by
  unfold isSquare; infer_instance

/-- The tile grid has `b` rows of `b` tiles, every tile `s` by `s`. -/
def isGrid (b s : Nat) (g : List (List matrix)) : Prop :=
  g.length = b ∧ ∀ r ∈ g, r.length = b ∧ ∀ t ∈ r, isSquare s t

instance (b s : Nat) (g : List (List matrix)) : Decidable (isGrid b s g) := by
  unfold isGrid; infer_instance

/-- The `n` by `n` slice of slices with `F i j` at `(i, j)`. -/
def mkGrid {α : Type} (n : Nat) (F : Nat → Nat → α) : List (List α) :=
  (List.range n).map (fun i => (List.range n).map (fun j => F i j))

/-- The accumulator of `c += a_0 * b_0; ...; c += a_(k-1) * b_(k-1)` started
at `c0`, where `f i` is the product `a_i * b_i` over the integers. -/
def dotAcc (m : Nat) (c0 : Int) (f : Nat → Int) : Nat → Int
  | 0 => c0
  | k + 1 => addW m (dotAcc m c0 f k) (wrap m (f k))

/-- The output tile of block `(i, j)` once the tasks `k < kb` of the block
have run: cell `(r, c)` holds the sum of the first `kb * s` products of row
`i * s + r` of `A` and column `j * s + c` of `B`, as a machine integer. -/
def partialTile (m s : Nat) (A B : matrix) (kb i j : Nat) : matrix :=
  mkGrid s (fun r c =>
    wrap m (∑ k ∈ Finset.range (kb * s), cell A (i * s + r) k * cell B k (j * s + c)))

/-- The tile of `mtx` at block `(i, j)` for the tile size `s`. -/
def tileOf (s : Nat) (mtx : matrix) (i j : Nat) : matrix :=
  mkGrid s (fun r c => cell mtx (i * s + r) (j * s + c))

/-- The slice of slices `g` has `n` rows, row `r` has `len r` cells, and
cell `(r, c)` holds `H r c`. -/
def Rep {α : Type} (n : Nat) (len : Nat → Nat) (H : Nat → Nat → α) (g : List (List α)) : Prop :=
  g.length = n ∧ ∀ r, r < n →
    ∃ row, g[r]? = some row ∧ row.length = len r ∧ ∀ c, c < len r → row[c]? = some (H r c)

/-! ## Text

A Go `string` is a list of bytes, each written as a `Char`. The functions of
the Go standard library that `stringMatrix` and `toString` call are modelled
after their documentation. -/

/-- The byte `"\n"`. -/
def newline : Char := Char.ofNat 10

/-- The byte `" "`. -/
def space : Char := Char.ofNat 32

/-- The byte `"\r"`. -/
def carriageReturn : Char := Char.ofNat 13

/-- The byte `"-"`. -/
def minusSign : Char := Char.ofNat 45

/-- The byte `"+"`. -/
def plusSign : Char := Char.ofNat 43

/-- Go's `strings.Split(s, sep)` for a separator of one byte: the pieces
between the separators, one more than there are separators. -/
def splitOn (sep : Char) : List Char → List (List Char)
  | [] => [[]]
  | c :: cs =>
    if c = sep then [] :: splitOn sep cs
    else
      match splitOn sep cs with
      | [] => [[c]]
      | p :: ps => (c :: p) :: ps

/-- Go's `bufio.MaxScanTokenSize`. -/
def maxScanTokenSize : Nat := 65536

/-- The function `dropCR` of `bufio.ScanLines`: a trailing `"\r"` is dropped. -/
def dropCR (line : List Char) : List Char :=
  if line.getLast? = some carriageReturn then line.dropLast else line

/-- The lines a `bufio.Scanner` over the text yields (`for sc.Scan()`, with
`sc.Text()`): the pieces between the newlines, without an empty piece after the
last newline; the scan stops at the first line that does not fit the buffer of
`maxScanTokenSize` bytes; a trailing `"\r"` of a line is dropped. -/
def scanLines (s : List Char) : List (List Char) :=
  let parts := splitOn newline s
  let parts := if parts.getLast? = some [] then parts.dropLast else parts
  (parts.takeWhile (fun l => decide (l.length < maxScanTokenSize))).map dropCR

/-- The value of a decimal digit. -/
def digitValue (c : Char) : Option Nat :=
  if 48 ≤ c.toNat ∧ c.toNat ≤ 57 then some (c.toNat - 48) else none

/-- What the scan of `strconv.ParseUint` finds. -/
inductive UintParse where
  /-- Every byte is a digit and the number is below `2 ^ 64`. -/
  | value (n : Nat)
  /-- A byte that is not a decimal digit. -/
  | syntaxError
  /-- The digits read so far reach `2 ^ 64`. -/
  | rangeError
  deriving DecidableEq, Repr

/-- The scan of `strconv.ParseUint(s, 10, 64)` after the digits `acc`, byte by
byte from the left: a byte that is no decimal digit is a syntax error; a digit
that takes the number to `2 ^ 64` or more is a range error, returned at once,
before the bytes after it are read. -/
def parseUint : List Char → Nat → UintParse
  | [], acc => .value acc
  | c :: cs, acc =>
    match digitValue c with
    | none => .syntaxError
    | some d => if 2 ^ 64 ≤ acc * 10 + d then .rangeError else parseUint cs (acc * 10 + d)

/-- The value `x` of `x, _ := strconv.Atoi(el)` (line 70) on a 64-bit
platform. After an optional sign: no digit at all or a syntax error gives 0;
a range error, or a number outside the range of `int`, gives the nearest end
of that range; otherwise the number itself. -/
def goAtoi (el : List Char) : Int :=
  let signed : Bool × List Char :=
    match el with
    | [] => (false, [])
    | c :: cs => if c = minusSign then (true, cs) else if c = plusSign then (false, cs)
        else (false, el)
  if signed.2 = [] then 0
  else
    match parseUint signed.2 0 with
    | .syntaxError => 0
    | .rangeError => if signed.1 then -(2 ^ 63) else 2 ^ 63 - 1
    | .value v =>
      if signed.1 then (if (v : Int) ≤ 2 ^ 63 then -(v : Int) else -(2 ^ 63))
      else (if (v : Int) < 2 ^ 63 then (v : Int) else 2 ^ 63 - 1)

/-- The body of the inner loop of `stringMatrix` (lines 70-71) at field
number `j` of line `i`. -/
def stringMatrixInner (fields : List (List Char)) (i j : Nat) (mtx : matrix) :
    Except Fault matrix :=
  match fields[j]? with
  | none => .ok mtx
  | some el => writeCell .stringMatrix mtx i j (goAtoi el)

/-- The body of the scanner loop of `stringMatrix` (lines 67-73) at the
`k`-th line the scanner yields; the state is the matrix and the counter `i`. -/
def stringMatrixOuter (n : Nat) (lines : List (List Char)) (k : Nat)
    (st : matrix × Nat) : Except Fault (matrix × Nat) :=
  match lines[k]? with
  | none => .ok st
  | some line => do
    let mtx ← writeRow .stringMatrix st.1 st.2 (makeInts n)
    let fields := splitOn space line
    let mtx ← forLoop (stringMatrixInner fields st.2) fields.length mtx
    pure (mtx, st.2 + 1)

/-- Source `stringMatrix` (lines 61-76). -/
def stringMatrix (s : List Char) : Except Fault matrix := do
  let n := (splitOn newline s).length
  let lines := scanLines s
  let st ← forLoop (stringMatrixOuter n lines) lines.length (makeNils n, 0)
  pure st.1

/-- The number that field `j` of the line holds; 0 when the line has no such
field. -/
def fieldValue (line : List Char) (j : Nat) : Int :=
  match (splitOn space line)[j]? with
  | some el => goAtoi el
  | none => 0

/-- The character of the last decimal digit of `n`. -/
def decDigit (n : Nat) : Char := Char.ofNat (48 + n % 10)

/-- The decimal digits of `n` in front of `acc`, most significant first;
`fuel` bounds the number of digits. -/
def natDigitsAux : Nat → Nat → List Char → List Char
  | 0, _, acc => acc
  | fuel + 1, n, acc =>
    if n < 10 then decDigit n :: acc
    else natDigitsAux fuel (n / 10) (decDigit n :: acc)

/-- The decimal digits of a natural number. -/
def natDigits (n : Nat) : List Char := natDigitsAux (n + 1) n []

/-- The decimal text of an integer, as the verb `%d` prints it. -/
def decimal (v : Int) : List Char :=
  if v < 0 then minusSign :: natDigits v.natAbs else natDigits v.natAbs

/-- The verb `%<col>d` of Go's `fmt` for a width that `fmt` accepts: the
decimal text of `v`, padded with spaces on the left to the width `col` when it
is shorter. -/
def sprintfD (col : Nat) (v : Int) : List Char :=
  List.replicate (col - (decimal v).length) space ++ decimal v

/-- Whether `fmt` gives up on the width `col` written in a format: while it
reads the digits of the width it stops, before every digit, once the number
read so far is above `10 ^ 6`; the last such test is on `col` without its
last digit. -/
def widthRejected (col : Nat) : Bool := decide (1000000 < col / 10)

/-- The text `"%!(NOVERB)"`. -/
def noVerbText : List Char := [37, 33, 40, 78, 79, 86, 69, 82, 66, 41].map Char.ofNat

/-- The text `"%!(EXTRA int="`. -/
def extraIntText : List Char :=
  [37, 33, 40, 69, 88, 84, 82, 65, 32, 105, 110, 116, 61].map Char.ofNat

/-- The byte `")"`. -/
def closeParen : Char := Char.ofNat 41

/-- Go's `fmt.Sprintf("%" + strconv.FormatInt(int64(col), 10) + "d ", v)`
(line 85): the value in its field followed by a space; for a width `fmt`
rejects, the rest of the format is dropped and the result is
`"%!(NOVERB)%!(EXTRA int=<v>)"`. -/
def sprintfCell (col : Nat) (v : Int) : List Char :=
  if widthRejected col then noVerbText ++ (extraIntText ++ (decimal v ++ [closeParen]))
  else sprintfD col v ++ [space]

/-- Go's `strings.Trim(s, "\n")`: all leading and all trailing newlines are
removed. -/
def trimNewlines (s : List Char) : List Char :=
  ((s.dropWhile (fun c => c == newline)).reverse.dropWhile (fun c => c == newline)).reverse

/-- The body of the inner loop of `toString` (line 85). -/
def toStringInner (col : Nat) (mtx : matrix) (i j : Nat) (s : List Char) :
    Except Fault (List Char) := do
  let v ← readCell .toString mtx i j
  pure (s ++ sprintfCell col v)

/-- The bound `len(mtx[0])` of the inner loop of `toString` (line 84). -/
def toStringCols (mtx : matrix) : Except Fault Nat :=
  match mtx[0]? with
  | none => .error (.indexOutOfRange .toString)
  | some row => .ok row.length

/-- The body of the outer loop of `toString` (lines 84-87). -/
def toStringOuter (col : Nat) (mtx : matrix) (i : Nat) (s : List Char) :
    Except Fault (List Char) := do
  let cols ← toStringCols mtx
  let s ← forLoop (toStringInner col mtx i) cols s
  pure (s ++ [newline])

/-- Source `toString` (lines 81-91), for a column width `col ≥ 0`. -/
def toString (col : Nat) (mtx : matrix) : Except Fault (List Char) := do
  let s ← forLoop (toStringOuter col mtx) mtx.length []
  pure (trimNewlines s)

/-- The text of row `i`: every cell as `sprintfD` prints it, followed by a
space. -/
def rowText (col n : Nat) (mtx : matrix) (i : Nat) : List Char :=
  ((List.range n).map (fun j => sprintfD col (cell mtx i j) ++ [space])).flatten

/-- The rows of the matrix as text, separated by single newlines. -/
def gridText (col n : Nat) (mtx : matrix) : List Char :=
  List.intercalate [newline] ((List.range n).map (rowText col n mtx))

/-! ## The command-line validation of `main` -/

/-- What `main` does at the end of its command-line validation. -/
inductive Validation where
  /-- Prints `usage()` and exits the process with this status. -/
  | usageExit (status : Nat)
  /-- The validation passed: `main` goes on to generate and multiply with
  these `n` and `s`. -/
  | multiply (n s : Int)
  deriving DecidableEq, Repr

/-- Go's `a % b` on `int`: the remainder of the division truncated towards
zero; a zero divisor is a run-time panic. -/
def goRem (site : Site) (a b : Int) : Except Fault Int :=
  if b = 0 then .error (.divideByZero site) else .ok (Int.tmod a b)

/-- Source `main`, lines 222-232. The list holds, for every command-line
argument, what `strconv.Atoi` returns for it: `none` when it returns an error.
The condition `errN != nil || errS != nil || n < 4 || n % s != 0` is
evaluated left to right and stops at the first true operand. -/
def mainValidation (args : List (Option Int)) : Except Fault Validation :=
  if args.length ≠ 2 then .ok (.usageExit 1)
  else
    match args with
    | [some n, some s] =>
      if n < 4 then .ok (.usageExit 1)
      else do
        let r ← goRem .main n s
        if r ≠ 0 then pure (.usageExit 1) else pure (.multiply n s)
    | _ => .ok (.usageExit 1)

/-! ## The WaitGroup protocol of `mtMultiply` -/

/-- Where the goroutine of `mtMultiply` stands in its block loops (lines
196-204). -/
inductive MainPc where
  /-- At the test `i < n / s` of the outer loop. -/
  | outer (i : Nat)
  /-- At the test `j < n / s` of the middle loop; `wg.Add(n / s)` is next. -/
  | inner (i j : Nat)
  /-- At the test `k < n / s` of the task loop; the `go` statement is next. -/
  | spawn (i j k : Nat)
  /-- In `wg.Wait()` of block `(i, j)`. -/
  | wait (i j : Nat)
  /-- Past the block loops, at `mergeSlices` (line 207). -/
  | merge
  deriving DecidableEq, Repr

/-- The state of the WaitGroup protocol: the position of `mtMultiply`, the
WaitGroup counter, and the tasks `(i, j, k)` that were launched by a `go`
statement and whose deferred `wg.Done()` has not run yet. -/
structure WgState where
  pc : MainPc
  counter : Int
  running : List (Nat × Nat × Nat)
  deriving DecidableEq, Repr

/-- What can happen next: `mtMultiply` takes its next step, or the running
task at position `idx` returns and its deferred `wg.Done()` runs. -/
inductive WgEvent where
  | mainStep
  | taskDone (idx : Nat)
  deriving DecidableEq, Repr

/-- One step of the protocol for `b = n / s`; `none` when the event cannot
happen in this state (`wg.Wait()` blocks while the counter is not zero, a
task that is not running cannot return). -/
def wgStep (b : Nat) (st : WgState) : WgEvent → Option WgState
  | .mainStep =>
    match st.pc with
    | .outer i => if i < b then some { st with pc := .inner i 0 }
        else some { st with pc := .merge }
    | .inner i j => if j < b then some { st with pc := .spawn i j 0, counter := st.counter + b }
        else some { st with pc := .outer (i + 1) }
    | .spawn i j k => if k < b
        then some { st with pc := .spawn i j (k + 1), running := (i, j, k) :: st.running }
        else some { st with pc := .wait i j }
    | .wait i j => if st.counter = 0 then some { st with pc := .inner i (j + 1) } else none
    | .merge => none
  | .taskDone idx =>
    if idx < st.running.length
    then some { st with counter := st.counter - 1, running := st.running.eraseIdx idx }
    else none

/-- The state a call of `mtMultiply` starts the block loops in. -/
def wgInit : WgState := { pc := .outer 0, counter := 0, running := [] }

/-- The state after a sequence of events, `none` if one of them cannot
happen. -/
def wgRun (b : Nat) : List WgEvent → WgState → Option WgState
  | [], st => some st
  | e :: es, st =>
    match wgStep b st e with
    | some st' => wgRun b es st'
    | none => none

/-- The block whose tasks `mtMultiply` is launching or waiting for. -/
def currentBlock : MainPc → Option (Nat × Nat)
  | .spawn i j _ => some (i, j)
  | .wait i j => some (i, j)
  | _ => none

/-- The invariant of the protocol: the counter is the number of running
tasks plus the number of tasks of the current block still to launch, and
every running task belongs to the current block. -/
def wgInv (b : Nat) (st : WgState) : Prop :=
  match st.pc with
  | .outer _ => st.counter = 0 ∧ st.running = []
  | .inner _ _ => st.counter = 0 ∧ st.running = []
  | .spawn i j k => k ≤ b ∧ st.counter = (st.running.length : Int) + ((b - k : Nat) : Int) ∧
      st.running.length ≤ k ∧ ∀ t ∈ st.running, t.1 = i ∧ t.2.1 = j
  | .wait i j => st.counter = (st.running.length : Int) ∧ st.running.length ≤ b ∧
      ∀ t ∈ st.running, t.1 = i ∧ t.2.1 = j
  | .merge => st.counter = 0 ∧ st.running = []

/-! ## Concurrent tasks on one output tile -/

/-- A running `addMultiply` task: its two argument tiles, the number of
iterations `(i, j, k)` of its triple loop it has completed, and, when it is in
the middle of `mtxC[i][j] += ...`, the value of `mtxC[i][j]` it has read and
not yet written back. -/
structure Task where
  mtxA : matrix
  mtxB : matrix
  iter : Nat
  loaded : Option Int
  deriving DecidableEq, Repr

/-- One memory access of a task on the shared receiver tile: the statement
`mtxC[i][j] += mtxA[i][k] * mtxB[k][j]` (line 171) first reads `mtxC[i][j]`,
then writes the sum back. Iteration number `iter` of the triple loop is
`i = iter / (n * n)`, `j = iter / n % n`, `k = iter % n`. A task that has
finished its loops does nothing. -/
def taskStep (m : Nat) (t : Task) (mtxC : matrix) : Except Fault (Task × matrix) :=
  let n := t.mtxA.length
  let i := t.iter / (n * n)
  let j := t.iter / n % n
  let k := t.iter % n
  if n * n * n ≤ t.iter then .ok (t, mtxC)
  else
    match t.loaded with
    | none => do
      let old ← readCell .addMultiply mtxC i j
      pure ({ t with loaded := some old }, mtxC)
    | some old => do
      let x ← readCell .addMultiply t.mtxA i k
      let y ← readCell .addMultiply t.mtxB k j
      let c ← writeCell .addMultiply mtxC i j (addW m old (mulW m x y))
      pure ({ t with iter := t.iter + 1, loaded := none }, c)

/-- The tasks of one block and their shared receiver tile under a schedule:
the list names, step by step, the task that performs its next memory access. -/
def runSchedule (m : Nat) : List Nat → List Task × matrix → Except Fault (List Task × matrix)
  | [], st => .ok st
  | tid :: rest, st =>
    match st.1[tid]? with
    | none => runSchedule m rest st
    | some t =>
      match taskStep m t st.2 with
      | .ok r => runSchedule m rest (st.1.set tid r.1, r.2)
      | .error e => .error e

/-- The task has returned: all iterations done, no access pending. -/
def Task.finished (t : Task) : Bool :=
  t.iter == t.mtxA.length * t.mtxA.length * t.mtxA.length && t.loaded == none

/-- The 2 by 2 all-ones tile: every tile of `allOnesMatrix(4)` for `s = 2`. -/
def onesTile : matrix := [[1, 1], [1, 1]]

/-- The 2 by 2 zero tile. -/
def zeroTile : matrix := [[0, 0], [0, 0]]

/-- A task of block `(0, 0)` of `mtMultiply(allOnesMatrix(4), allOnesMatrix(4), 2)`
before its first access. -/
def onesTask : Task := { mtxA := onesTile, mtxB := onesTile, iter := 0, loaded := none }

/-- The two tasks one after the other: 16 accesses of task 0, then 16 of task 1. -/
def serialSchedule : List Nat := List.replicate 16 0 ++ List.replicate 16 1

/-- Task 1 reads `mtxC[0][0]` between the read and the write of task 0; the
rest as in `serialSchedule`. -/
def racySchedule : List Nat := [0, 1, 0, 1] ++ List.replicate 14 0 ++ List.replicate 14 1

/-! ## The tasks of a block in another order -/

/-- The loop body `body k` run once for every `k` of the list `ks`, in the
order of the list, stopping at the first fault. -/
def runInOrder {σ : Type} (body : Nat → σ → Except Fault σ) : List Nat → σ → Except Fault σ
  | [], st => .ok st
  | k :: ks, st =>
    match body k st with
    | .ok st' => runInOrder body ks st'
    | .error e => .error e

/-- The sum of the `s` products that the task `kb` of block `(i, j)` adds to
cell `(r, c)` of the output tile, over the integers. -/
def blockSum (s : Nat) (A B : matrix) (i j r c kb : Nat) : Int :=
  ∑ k ∈ Finset.range s, cell A (i * s + r) (kb * s + k) * cell B (kb * s + k) (j * s + c)

/-! ## Example inputs -/

/-- The 2 by 2 grid of zero tiles of size 2. -/
def exZeroGrid : List (List matrix) :=
  [[[[0, 0], [0, 0]], [[0, 0], [0, 0]]], [[[0, 0], [0, 0]], [[0, 0], [0, 0]]]]


/-- A 4 by 4 matrix. -/
def exA : matrix := [[1, 2, 3, 4], [5, 6, 7, 8], [9, 10, 11, 12], [13, 14, 15, 16]]

/-- A 4 by 4 matrix with a cell near the top of the 64-bit range. -/
def exB : matrix := [[1, 0, 0, 1], [0, -1, 0, 0], [0, 0, 2 ^ 62, 0], [2, 0, 0, 1]]

/-- A 2 by 2 grid of 2 by 2 tiles. -/
def exGrid : List (List matrix) :=
  [[[[1, 2], [3, 4]], [[5, 6], [7, 8]]], [[[9, 10], [11, 12]], [[13, 14], [15, 16]]]]

/-- A 2 by 2 tile. -/
def exT : matrix := [[1, -2], [3, 4]]

/-- A 2 by 2 tile. -/
def exU : matrix := [[0, 5], [2 ^ 63 - 1, 7]]

/-- The text `"1 2\n3 4"`: two lines of two fields. -/
def exText : List Char := [49, 32, 50, 10, 51, 32, 52].map Char.ofNat

/-- The text `"1 2"`: one line of two fields. -/
def exTextLongRow : List Char := [49, 32, 50].map Char.ofNat

/-- The text `"1\n"`: one line, ended by a newline. -/
def exTextNewlineEnd : List Char := [49, 10].map Char.ofNat

/-! ## Loops and slices: basic facts -/

@[simp] theorem ok_bind {α β : Type} (a : α) (f : α → Except Fault β) :
    (Except.ok a >>= f) = f a := rfl

@[simp] theorem error_bind {α β : Type} (e : Fault) (f : α → Except Fault β) :
    ((Except.error e : Except Fault α) >>= f) = Except.error e := rfl

@[simp] theorem pure_eq_ok {α : Type} (a : α) : (pure a : Except Fault α) = Except.ok a := rfl

theorem forLoop_succ {σ : Type} (body : Nat → σ → Except Fault σ) (k : Nat) (st : σ) :
    forLoop body (k + 1) st = (forLoop body k st >>= body k) := by
  show (match forLoop body k st with
    | .ok st' => body k st'
    | .error e => .error e) = _
  cases forLoop body k st <;> rfl

/-- Loop invariant rule: an invariant that holds at the start and that every
iteration re-establishes without a fault holds at the end, and the loop
returns. -/
theorem forLoop_inv {σ : Type} (body : Nat → σ → Except Fault σ) (P : Nat → σ → Prop)
    (n : Nat) (init : σ) (h0 : P 0 init)
    (hstep : ∀ k st, k < n → P k st → ∃ st', body k st = .ok st' ∧ P (k + 1) st') :
    ∃ st, forLoop body n init = .ok st ∧ P n st := by
  induction n with
  | zero => exact ⟨init, rfl, h0⟩
  | succ k ih =>
    obtain ⟨st, hst, hP⟩ := ih (fun j st hj hp => hstep j st (Nat.lt_succ_of_lt hj) hp)
    obtain ⟨st', hst', hP'⟩ := hstep k st (Nat.lt_succ_self k) hP
    exact ⟨st', by rw [forLoop_succ, hst, ok_bind, hst'], hP'⟩

section Rep

variable {α : Type}

theorem Rep.congr {n : Nat} {len len' : Nat → Nat} {H H' : Nat → Nat → α}
    {g : List (List α)} (h : Rep n len H g) (hlen : ∀ r, r < n → len r = len' r)
    (hH : ∀ r c, r < n → c < len r → H r c = H' r c) : Rep n len' H' g := by
  refine ⟨h.1, fun r hr => ?_⟩
  obtain ⟨row, h1, h2, h3⟩ := h.2 r hr
  refine ⟨row, h1, by rw [h2, hlen r hr], fun c hc => ?_⟩
  rw [← hlen r hr] at hc
  rw [h3 c hc, hH r c hr hc]

theorem Rep.cell_eq [Inhabited α] {n : Nat} {len : Nat → Nat} {H : Nat → Nat → α} {g : List (List α)}
    (h : Rep n len H g) {r c : Nat} (hr : r < n) (hc : c < len r) : cell g r c = H r c := by
  obtain ⟨row, h1, _, h3⟩ := h.2 r hr
  simp [cell, h1, h3 c hc]

theorem Rep.rowLen_eq {n : Nat} {len : Nat → Nat} {H : Nat → Nat → α} {g : List (List α)}
    (h : Rep n len H g) {r : Nat} (hr : r < n) : rowLen g r = len r := by
  obtain ⟨row, h1, h2, _⟩ := h.2 r hr
  simp [rowLen, h1, h2]

theorem Rep.read {n : Nat} {len : Nat → Nat} {H : Nat → Nat → α} {g : List (List α)}
    (h : Rep n len H g) (site : Site) {i j : Nat} (hi : i < n) (hj : j < len i) :
    readCell site g i j = .ok (H i j) := by
  obtain ⟨row, h1, _, h3⟩ := h.2 i hi
  simp [readCell, h1, h3 j hj]

theorem Rep.write {n : Nat} {len : Nat → Nat} {H : Nat → Nat → α} {g : List (List α)}
    (h : Rep n len H g) (site : Site) {i j : Nat} (hi : i < n) (hj : j < len i) (v : α) :
    ∃ g', writeCell site g i j v = .ok g' ∧
      Rep n len (fun r c => if r = i ∧ c = j then v else H r c) g' := by
  obtain ⟨row, h1, h2, h3⟩ := h.2 i hi
  refine ⟨g.set i (row.set j v), by simp [writeCell, h1, h2, hj], ?_, fun r hr => ?_⟩
  · simp [h.1]
  · by_cases hri : r = i
    · subst hri
      refine ⟨row.set j v, ?_, by simp [h2], fun c hc => ?_⟩
      · rw [List.getElem?_set_self (by rw [h.1]; exact hr)]
      · by_cases hcj : c = j
        · subst hcj
          rw [List.getElem?_set_self (by rw [h2]; exact hc)]; simp
        · rw [List.getElem?_set_ne (Ne.symm hcj), h3 c hc]; simp [hcj]
    · obtain ⟨row', h1', h2', h3'⟩ := h.2 r hr
      refine ⟨row', ?_, h2', fun c hc => ?_⟩
      · rw [List.getElem?_set_ne (Ne.symm hri), h1']
      · rw [h3' c hc]; simp [hri]

theorem Rep.write_row {n : Nat} {len : Nat → Nat} {H : Nat → Nat → α} {g : List (List α)}
    (h : Rep n len H g) (site : Site) {i : Nat} (hi : i < n) (k : Nat) (v : α) :
    ∃ g', MtxMult.writeRow site g i (List.replicate k v) = .ok g' ∧
      Rep n (fun r => if r = i then k else len r) (fun r c => if r = i then v else H r c) g' := by
  refine ⟨g.set i (List.replicate k v), by simp [MtxMult.writeRow, h.1, hi], ?_, fun r hr => ?_⟩
  · simp [h.1]
  · by_cases hri : r = i
    · subst hri
      refine ⟨List.replicate k v, ?_, by simp, fun c hc => ?_⟩
      · rw [List.getElem?_set_self (by rw [h.1]; exact hr)]
      · simp at hc; simp [List.getElem?_replicate, hc]
    · obtain ⟨row', h1', h2', h3'⟩ := h.2 r hr
      refine ⟨row', ?_, by simp [hri, h2'], fun c hc => ?_⟩
      · rw [List.getElem?_set_ne (Ne.symm hri), h1']
      · simp [hri] at hc; rw [h3' c hc]; simp [hri]

theorem Rep.unique {n : Nat} {len : Nat → Nat} {H : Nat → Nat → α} {g g' : List (List α)}
    (h : Rep n len H g) (h' : Rep n len H g') : g = g' := by
  apply List.ext_getElem?
  intro r
  by_cases hr : r < n
  · obtain ⟨row, h1, h2, h3⟩ := h.2 r hr
    obtain ⟨row', h1', h2', h3'⟩ := h'.2 r hr
    rw [h1, h1']
    congr 1
    apply List.ext_getElem?
    intro c
    by_cases hc : c < len r
    · rw [h3 c hc, h3' c hc]
    · rw [List.getElem?_eq_none (by omega), List.getElem?_eq_none (by omega)]
  · rw [List.getElem?_eq_none (by rw [h.1]; omega), List.getElem?_eq_none (by rw [h'.1]; omega)]

theorem Rep_makeNils (n : Nat) (len : Nat → Nat) (H : Nat → Nat → α)
    (hlen : ∀ r, r < n → len r = 0) : Rep n len H (makeNils n : List (List α)) := by
  refine ⟨by simp [makeNils], fun r hr => ⟨[], ?_, (hlen r hr).symm, fun c hc => ?_⟩⟩
  · simp [makeNils, List.getElem?_replicate, hr]
  · rw [hlen r hr] at hc; exact absurd hc (Nat.not_lt_zero c)

theorem Rep_mkGrid (n : Nat) (F : Nat → Nat → α) : Rep n (fun _ => n) F (mkGrid n F) := by
  refine ⟨by simp [mkGrid], fun r hr => ⟨(List.range n).map (fun j => F r j), ?_, by simp,
    fun c hc => ?_⟩⟩
  · simp [mkGrid, List.getElem?_range hr]
  · simp [List.getElem?_range hc]

theorem Rep.eq_mkGrid {n : Nat} {H : Nat → Nat → α} {g : List (List α)}
    (h : Rep n (fun _ => n) H g) : g = mkGrid n H :=
  h.unique (Rep_mkGrid n H)

theorem cell_mkGrid [Inhabited α] (n : Nat) (F : Nat → Nat → α) {r c : Nat} (hr : r < n) (hc : c < n) :
    cell (mkGrid n F) r c = F r c :=
  (Rep_mkGrid n F).cell_eq hr hc

theorem mkGrid_congr (n : Nat) (F G : Nat → Nat → α)
    (h : ∀ r c, r < n → c < n → F r c = G r c) : mkGrid n F = mkGrid n G :=
  ((Rep_mkGrid n F).congr (fun _ _ => rfl) h).unique (Rep_mkGrid n G)

end Rep

theorem isSquare_iff_Rep (n : Nat) (mtx : matrix) :
    isSquare n mtx ↔ Rep n (fun _ => n) (cell mtx) mtx := by
  constructor
  · rintro ⟨h1, h2⟩
    refine ⟨h1, fun r hr => ?_⟩
    have hr' : r < mtx.length := by rw [h1]; exact hr
    have hlen : (mtx[r]).length = n := h2 _ (List.getElem_mem hr')
    refine ⟨mtx[r], List.getElem?_eq_getElem hr', hlen, fun c hc => ?_⟩
    have hc' : c < (mtx[r]).length := by rw [hlen]; exact hc
    simp [cell, List.getElem?_eq_getElem hr', List.getElem?_eq_getElem hc']
  · intro h
    refine ⟨h.1, fun row hrow => ?_⟩
    obtain ⟨r, hr, rfl⟩ := List.getElem_of_mem hrow
    obtain ⟨row', h1, h2, _⟩ := h.2 r (by rw [← h.1]; exact hr)
    rw [List.getElem?_eq_getElem hr] at h1
    cases h1
    exact h2

theorem Rep.square {n : Nat} {H : Nat → Nat → Int} {g : matrix}
    (h : Rep n (fun _ => n) H g) : isSquare n g :=
  (isSquare_iff_Rep n g).2 (h.congr (fun _ _ => rfl) (fun _ _ hr hc => (h.cell_eq hr hc).symm))

theorem isSquare_mkGrid (n : Nat) (F : Nat → Nat → Int) : isSquare n (mkGrid n F) :=
  (Rep_mkGrid n F).square

theorem isSquare.eq_mkGrid_cells {n : Nat} {mtx : matrix} (h : isSquare n mtx) :
    mtx = mkGrid n (cell mtx) :=
  ((isSquare_iff_Rep n mtx).1 h).eq_mkGrid

theorem isGrid.rep {b s : Nat} {g : List (List matrix)} (h : isGrid b s g) :
    Rep b (fun _ => b) (cell g) g ∧ ∀ i j, i < b → j < b → isSquare s (cell g i j) := by
  obtain ⟨h1, h2⟩ := h
  have key : ∀ r, r < b → ∃ row, g[r]? = some row ∧ row.length = b ∧
      ∀ c, c < b → ∃ t, row[c]? = some t ∧ isSquare s t := by
    intro r hr
    have hr' : r < g.length := by rw [h1]; exact hr
    obtain ⟨hl, ht⟩ := h2 _ (List.getElem_mem hr')
    refine ⟨g[r], List.getElem?_eq_getElem hr', hl, fun c hc => ?_⟩
    have hc' : c < (g[r]).length := by rw [hl]; exact hc
    exact ⟨(g[r])[c], List.getElem?_eq_getElem hc', ht _ (List.getElem_mem hc')⟩
  constructor
  · refine ⟨h1, fun r hr => ?_⟩
    obtain ⟨row, e1, e2, e3⟩ := key r hr
    refine ⟨row, e1, e2, fun c hc => ?_⟩
    obtain ⟨t, e4, _⟩ := e3 c hc
    simp [cell, e1, e4]
  · intro i j hi hj
    obtain ⟨row, e1, _, e3⟩ := key i hi
    obtain ⟨t, e4, e5⟩ := e3 j hj
    simpa [cell, e1, e4] using e5

/-! ## Machine integers: facts -/

theorem wrap_modEq (m : Nat) (x : Int) : wrap m x ≡ x [ZMOD (m : Int)] := by
  have h : (x + ((m / 2 : Nat) : Int)) % (m : Int) ≡ x + ((m / 2 : Nat) : Int) [ZMOD (m : Int)] :=
    Int.mod_modEq _ _
  have h2 := h.sub_right ((m / 2 : Nat) : Int)
  simpa [wrap] using h2

theorem wrap_congr {m : Nat} {x y : Int} (h : x ≡ y [ZMOD (m : Int)]) : wrap m x = wrap m y := by
  have h2 : (x + ((m / 2 : Nat) : Int)) % (m : Int) = (y + ((m / 2 : Nat) : Int)) % (m : Int) :=
    h.add_right _
  simp only [wrap, h2]

theorem wrap_add_wrap (m : Nat) (a b : Int) : wrap m (a + wrap m b) = wrap m (a + b) :=
  wrap_congr ((wrap_modEq m b).add_left a)

theorem wrap_wrap_add (m : Nat) (a b : Int) : wrap m (wrap m a + b) = wrap m (a + b) :=
  wrap_congr ((wrap_modEq m a).add_right b)

theorem wrap_wrap (m : Nat) (a : Int) : wrap m (wrap m a) = wrap m a :=
  wrap_congr (wrap_modEq m a)

theorem wrap_of_inRange {m : Nat} {x : Int} (h : inRange m x) : wrap m x = x := by
  rcases h with h | ⟨h1, h2⟩
  · subst h; simp [wrap]
  · unfold wrap
    rw [Int.emod_eq_of_lt (by omega) (by omega)]
    omega

theorem inRange_zero (m : Nat) : inRange m 0 := by
  rcases Nat.eq_zero_or_pos m with h | h
  · exact Or.inl h
  · refine Or.inr ⟨by omega, ?_⟩
    have : m / 2 < m := Nat.div_lt_self h (by decide)
    omega

theorem wrap_zero (m : Nat) : wrap m 0 = 0 := wrap_of_inRange (inRange_zero m)

theorem dotAcc_wrap (m : Nat) (c0 : Int) (f : Nat → Int) (k : Nat) :
    wrap m (dotAcc m c0 f k) = wrap m (c0 + ∑ i ∈ Finset.range k, f i) := by
  induction k with
  | zero => simp [dotAcc]
  | succ k ih =>
    rw [dotAcc, addW, wrap_wrap, wrap_add_wrap, ← wrap_wrap_add, ih, wrap_wrap_add,
      Finset.sum_range_succ, add_assoc]

theorem dotAcc_pos (m : Nat) (c0 : Int) (f : Nat → Int) {k : Nat} (hk : 0 < k) :
    dotAcc m c0 f k = wrap m (c0 + ∑ i ∈ Finset.range k, f i) := by
  obtain ⟨k, rfl⟩ : ∃ j, k = j + 1 := ⟨k - 1, by omega⟩
  rw [← dotAcc_wrap, dotAcc, addW, wrap_wrap]

theorem dotAcc_zero (m : Nat) (f : Nat → Int) (k : Nat) :
    dotAcc m 0 f k = wrap m (∑ i ∈ Finset.range k, f i) := by
  rcases Nat.eq_zero_or_pos k with h | h
  · subst h; simp [dotAcc, wrap_zero]
  · rw [dotAcc_pos m 0 f h, zero_add]

/-! ## `allOnesMatrix` -/

theorem allOnesMatrix_eq (n : Nat) : allOnesMatrix n = .ok (mkGrid n (fun _ _ => 1)) := by
  have inner : ∀ i, i < n → ∀ g : matrix,
      Rep n (fun r => if r ≤ i then n else 0) (fun r _ => if r = i then 0 else 1) g →
      ∃ g', forLoop (allOnesInner i) n g = .ok g' ∧
        Rep n (fun r => if r ≤ i then n else 0) (fun _ _ => 1) g' := by
    intro i hi g hg
    obtain ⟨g', h1, h2⟩ := forLoop_inv (allOnesInner i)
      (fun j g => Rep n (fun r => if r ≤ i then n else 0)
        (fun r c => if r = i ∧ j ≤ c then 0 else 1) g) n g
      (hg.congr (fun _ _ => rfl) (fun r c _ _ => by simp))
      (fun j g hj hg => by
        obtain ⟨g', h1, h2⟩ := hg.write .allOnesMatrix hi (by simp; exact hj) (1 : Int)
        refine ⟨g', h1, h2.congr (fun _ _ => rfl) (fun r c _ _ => ?_)⟩
        by_cases h1 : r = i <;> by_cases h2 : c = j <;> simp [h1, h2]; omega)
    refine ⟨g', h1, h2.congr (fun _ _ => rfl) (fun r c hr hc => ?_)⟩
    have hc' : c < n := by
      by_cases h : r ≤ i <;> simp [h] at hc
      exact hc
    have : ¬ (n ≤ c) := by omega
    simp [this]
  obtain ⟨g, h1, h2⟩ := forLoop_inv (allOnesOuter n)
    (fun i g => Rep n (fun r => if r < i then n else 0) (fun _ _ => (1 : Int)) g) n (makeNils n)
    (Rep_makeNils n _ _ (fun _ _ => by simp))
    (fun i g hi hg => by
      obtain ⟨g1, e1, r1⟩ := hg.write_row .allOnesMatrix hi n (0 : Int)
      obtain ⟨g2, e2, r2⟩ := inner i hi g1 (r1.congr
        (fun r _ => by split_ifs <;> omega)
        (fun r c _ _ => rfl))
      refine ⟨g2, ?_, r2.congr (fun r _ => ?_) (fun _ _ _ _ => rfl)⟩
      · simp only [allOnesOuter, makeInts, e1, ok_bind, e2]
      · (try dsimp only); split_ifs <;> omega)
  rw [allOnesMatrix, h1]
  congr 1
  exact (h2.congr (fun r hr => by simp [hr]) (fun _ _ _ _ => rfl)).eq_mkGrid

/-! ## `getSlice` and `getSlices` -/

theorem getSlice_eq {n : Nat} {mtx : matrix} (hM : isSquare n mtx) {i j s : Nat}
    (hi : (i + 1) * s ≤ n) (hj : (j + 1) * s ≤ n) :
    getSlice mtx i j s = .ok (tileOf s mtx i j) := by
  unfold tileOf
  have hM' := (isSquare_iff_Rep n mtx).1 hM
  have hi' : (i + 1) * s = i * s + s := Nat.succ_mul i s
  have hj' : (j + 1) * s = j * s + s := Nat.succ_mul j s
  have inner : ∀ r, r < s → ∀ g : matrix,
      Rep s (fun r' => if r' ≤ r then s else 0)
        (fun r' c' => if r' = r then 0 else cell mtx (i * s + r') (j * s + c')) g →
      ∃ st', forLoop (getSliceInner mtx (i * s + r) r) s (g, j * s) = .ok st' ∧
        Rep s (fun r' => if r' ≤ r then s else 0)
          (fun r' c' => cell mtx (i * s + r') (j * s + c')) st'.1 := by
    intro r hr g hg
    obtain ⟨st', h1, _, h2⟩ := forLoop_inv (getSliceInner mtx (i * s + r) r)
      (fun c st => st.2 = j * s + c ∧ Rep s (fun r' => if r' ≤ r then s else 0)
        (fun r' c' => if r' = r ∧ c ≤ c' then 0 else cell mtx (i * s + r') (j * s + c')) st.1)
      s (g, j * s)
      ⟨rfl, hg.congr (fun _ _ => rfl) (fun r c _ _ => by simp)⟩
      (fun c st hc hP => by
        obtain ⟨g, col⟩ := st
        obtain ⟨hcol, hg⟩ := hP
        simp only at hcol hg
        subst hcol
        have e1 := hM'.read .getSlice (i := i * s + r) (j := j * s + c) (by omega) (by omega)
        obtain ⟨g', e2, r2⟩ := hg.write .getSlice hr (by simp; exact hc)
          (cell mtx (i * s + r) (j * s + c))
        refine ⟨(g', j * s + c + 1), ?_, rfl, r2.congr (fun _ _ => rfl) (fun r' c' _ _ => ?_)⟩
        · simp only [getSliceInner, e1, ok_bind, e2, pure_eq_ok]
        · by_cases h1 : r' = r <;> by_cases h2 : c' = c
          · subst h1 h2; simp
          · subst h1; simp [h2]; omega
          · simp [h1]
          · simp [h1])
    refine ⟨st', h1, h2.congr (fun _ _ => rfl) (fun r' c' hr' hc' => ?_)⟩
    have hcs : c' < s := by
      by_cases h : r' ≤ r <;> simp [h] at hc'
      exact hc'
    have : ¬ (s ≤ c') := by omega
    simp [this]
  obtain ⟨st, h1, _, h2⟩ := forLoop_inv (getSliceOuter mtx j s)
    (fun r st => st.2 = i * s + r ∧ Rep s (fun r' => if r' < r then s else 0)
      (fun r' c' => cell mtx (i * s + r') (j * s + c')) st.1)
    s (makeNils s, i * s)
    ⟨rfl, Rep_makeNils s _ _ (fun _ _ => by simp)⟩
    (fun r st hr hP => by
      obtain ⟨g, row⟩ := st
      obtain ⟨hrow, hg⟩ := hP
      simp only at hrow hg
      subst hrow
      obtain ⟨g1, e1, r1⟩ := hg.write_row .getSlice hr s (0 : Int)
      obtain ⟨st2, e2, r2⟩ := inner r hr g1 (r1.congr
        (fun r' _ => by split_ifs <;> omega) (fun _ _ _ _ => rfl))
      refine ⟨(st2.1, i * s + r + 1), ?_, rfl, r2.congr (fun r' _ => ?_) (fun _ _ _ _ => rfl)⟩
      · simp only [getSliceOuter, makeInts, e1, ok_bind, e2, pure_eq_ok]
      · split_ifs <;> omega)
  simp only [getSlice, h1, ok_bind, pure_eq_ok]
  congr 1
  exact (h2.congr (fun r hr => by simp [hr]) (fun _ _ _ _ => rfl)).eq_mkGrid

theorem getSlices_eq {n : Nat} {mtx : matrix} (hM : isSquare n mtx) {s : Nat} (hs : 1 ≤ s) :
    getSlices mtx s = .ok (mkGrid (n / s) (tileOf s mtx)) := by
  show getSlices mtx s = .ok (mkGrid (n / s)
      (fun i j => mkGrid s (fun r c => cell mtx (i * s + r) (j * s + c))))
  have hlen : mtx.length = n := hM.1
  have hb : n / s * s ≤ n := Nat.div_mul_le_self n s
  have hbound : ∀ i, i < n / s → (i + 1) * s ≤ n := fun i hi =>
    Nat.le_trans (Nat.mul_le_mul_right s hi) hb
  have inner : ∀ i, i < n / s → ∀ g : List (List matrix),
      Rep (n / s) (fun r => if r ≤ i then n / s else 0)
        (fun r c => if r = i then [] else mkGrid s (fun r' c' => cell mtx (r * s + r') (c * s + c'))) g →
      ∃ g', forLoop (getSlicesInner mtx s i) (n / s) g = .ok g' ∧
        Rep (n / s) (fun r => if r ≤ i then n / s else 0)
          (fun r c => mkGrid s (fun r' c' => cell mtx (r * s + r') (c * s + c'))) g' := by
    intro i hi g hg
    obtain ⟨g', h1, h2⟩ := forLoop_inv (getSlicesInner mtx s i)
      (fun j g => Rep (n / s) (fun r => if r ≤ i then n / s else 0)
        (fun r c => if r = i ∧ j ≤ c then []
          else mkGrid s (fun r' c' => cell mtx (r * s + r') (c * s + c'))) g)
      (n / s) g
      (hg.congr (fun _ _ => rfl) (fun r c _ _ => by simp))
      (fun j g hj hg => by
        have e1 : getSlice mtx i j s =
            .ok (mkGrid s (fun r' c' => cell mtx (i * s + r') (j * s + c'))) :=
          getSlice_eq hM (hbound i hi) (hbound j hj)
        obtain ⟨g', e2, r2⟩ := hg.write .getSlices hi (by simp; exact hj)
          (mkGrid s (fun r' c' => cell mtx (i * s + r') (j * s + c')))
        refine ⟨g', ?_, r2.congr (fun _ _ => rfl) (fun r' c' _ _ => ?_)⟩
        · simp only [getSlicesInner, e1, ok_bind, e2]
        · by_cases h1 : r' = i <;> by_cases h2 : c' = j
          · subst h1 h2; simp
          · subst h1
            by_cases h3 : j ≤ c'
            · have h4 : j + 1 ≤ c' := by omega
              simp [h2, h3, h4]
            · have h4 : ¬ (j + 1 ≤ c') := by omega
              simp [h2, h3, h4]
          · simp [h1]
          · simp [h1])
    refine ⟨g', h1, h2.congr (fun _ _ => rfl) (fun r' c' hr' hc' => ?_)⟩
    have hcs : c' < n / s := by
      by_cases h : r' ≤ i <;> simp [h] at hc'
      exact hc'
    have : ¬ (n / s ≤ c') := by omega
    simp [this]
  obtain ⟨g, h1, h2⟩ := forLoop_inv (getSlicesOuter mtx s (n / s))
    (fun i g => Rep (n / s) (fun r => if r < i then n / s else 0)
      (fun r c => mkGrid s (fun r' c' => cell mtx (r * s + r') (c * s + c'))) g)
    (n / s) (makeNils (n / s))
    (Rep_makeNils _ _ _ (fun _ _ => by simp))
    (fun i g hi hg => by
      obtain ⟨g1, e1, r1⟩ := hg.write_row .getSlices hi (n / s) ([] : matrix)
      obtain ⟨g2, e2, r2⟩ := inner i hi g1 (r1.congr
        (fun r' _ => by split_ifs <;> omega) (fun _ _ _ _ => rfl))
      refine ⟨g2, ?_, r2.congr (fun r' _ => ?_) (fun _ _ _ _ => rfl)⟩
      · simp only [getSlicesOuter, makeNils, e1, ok_bind, e2]
      · split_ifs <;> omega)
  have hs' : s ≠ 0 := by omega
  simp only [getSlices, goDiv, hlen, hs', if_false, ok_bind, h1]
  congr 1
  exact (h2.congr (fun r hr => by simp [hr]) (fun _ _ _ _ => rfl)).eq_mkGrid

/-! ## `mergeSlices` -/

theorem div_lt_blocks {n s i : Nat} (hs : 1 ≤ s) (hdiv : s ∣ n) (hi : i < n) : i / s < n / s := by
  rw [Nat.div_lt_iff_lt_mul (by omega), Nat.div_mul_cancel hdiv]
  exact hi

/-- The inner loop of `mergeSlices` in row `i`, run for `J` iterations: the
counter `col` is `J % s` and the cells `(i, c)`, `c < J`, are merged. -/
theorem mergeSlicesInner_run {n s : Nat} {slices : List (List matrix)}
    (hG : isGrid (n / s) s slices) (hs : 1 ≤ s) (hdiv : s ∣ n) {i : Nat} (hi : i < n)
    (H : Nat → Nat → Int) (g : matrix) (hg : Rep n (fun _ => n) H g) (J : Nat) (hJ : J ≤ n) :
    ∃ st', forLoop (mergeSlicesInner slices s i (i % s)) J (g, 0) = .ok st' ∧ st'.2 = J % s ∧
      Rep n (fun _ => n) (fun r c => if r = i ∧ c < J
        then cell (cell slices (r / s) (c / s)) (r % s) (c % s) else H r c) st'.1 := by
  obtain ⟨hGrep, hGsq⟩ := hG.rep
  have hs' : s ≠ 0 := by omega
  exact forLoop_inv (mergeSlicesInner slices s i (i % s))
    (fun j st => st.2 = j % s ∧ Rep n (fun _ => n) (fun r c => if r = i ∧ c < j
      then cell (cell slices (r / s) (c / s)) (r % s) (c % s) else H r c) st.1)
    J (g, 0)
    ⟨by simp, hg.congr (fun _ _ => rfl) (fun r c _ _ => by simp)⟩
    (fun j st hj hP => by
      obtain ⟨g, col⟩ := st
      obtain ⟨hcol, hg⟩ := hP
      simp only at hcol hg
      subst hcol
      have hjn : j < n := by omega
      obtain ⟨row, hrow, _, _⟩ := hg.2 i hi
      have e1 := hGrep.read .mergeSlices (div_lt_blocks hs hdiv hi) (div_lt_blocks hs hdiv hjn)
      have hT := (isSquare_iff_Rep s _).1
        (hGsq (i / s) (j / s) (div_lt_blocks hs hdiv hi) (div_lt_blocks hs hdiv hjn))
      have e2 := hT.read .mergeSlices (Nat.mod_lt i (by omega : s > 0))
        (Nat.mod_lt j (by omega : s > 0))
      obtain ⟨g', e3, r3⟩ := hg.write .mergeSlices hi hjn
        (cell (cell slices (i / s) (j / s)) (i % s) (j % s))
      refine ⟨(g', (j + 1) % s), ?_, rfl, r3.congr (fun _ _ => rfl) (fun r' c' _ _ => ?_)⟩
      · simp only [mergeSlicesInner, hrow, goDiv, goMod, hs', if_false, ok_bind, e1, e2, e3,
          pure_eq_ok, Nat.mod_add_mod]
      · by_cases h1 : r' = i <;> by_cases h2 : c' = j
        · subst h1 h2; simp
        · subst h1
          by_cases h3 : c' < j
          · have h4 : c' < j + 1 := by omega
            simp [h2, h3, h4]
          · have h4 : ¬ (c' < j + 1) := by omega
            simp [h2, h3, h4]
        · simp [h1]
        · simp [h1])

/-- The outer loop of `mergeSlices`, run for `I` iterations: the counter
`row` is `I % s` and the rows before `I` are merged. -/
theorem mergeSlicesOuter_run {n s : Nat} {mtx : matrix} {slices : List (List matrix)}
    (hD : isSquare n mtx) (hG : isGrid (n / s) s slices) (hs : 1 ≤ s) (hdiv : s ∣ n)
    (I : Nat) (hI : I ≤ n) :
    ∃ st', forLoop (mergeSlicesOuter slices n s) I (mtx, 0) = .ok st' ∧ st'.2 = I % s ∧
      Rep n (fun _ => n) (fun r c => if r < I
        then cell (cell slices (r / s) (c / s)) (r % s) (c % s) else cell mtx r c) st'.1 := by
  have hs' : s ≠ 0 := by omega
  exact forLoop_inv (mergeSlicesOuter slices n s)
    (fun i st => st.2 = i % s ∧ Rep n (fun _ => n) (fun r c => if r < i
      then cell (cell slices (r / s) (c / s)) (r % s) (c % s) else cell mtx r c) st.1)
    I (mtx, 0)
    ⟨by simp, ((isSquare_iff_Rep n mtx).1 hD).congr (fun _ _ => rfl) (fun r c _ _ => by simp)⟩
    (fun i st hi hP => by
      obtain ⟨g, row⟩ := st
      obtain ⟨hrow, hg⟩ := hP
      simp only at hrow hg
      subst hrow
      have hin : i < n := by omega
      obtain ⟨st', e1, _, r1⟩ := mergeSlicesInner_run hG hs hdiv hin _ g hg n (Nat.le_refl n)
      refine ⟨(st'.1, (i + 1) % s), ?_, rfl, r1.congr (fun _ _ => rfl) (fun r' c' _ hc' => ?_)⟩
      · simp only [mergeSlicesOuter, e1, goMod, hs', if_false, ok_bind, pure_eq_ok,
          Nat.mod_add_mod]
      · by_cases h1 : r' = i
        · subst h1; simp [hc']
        · by_cases h3 : r' < i
          · have h4 : r' < i + 1 := by omega
            simp [h1, h3, h4]
          · have h4 : ¬ (r' < i + 1) := by omega
            simp [h1, h3, h4])

theorem mergeSlices_eq {n s : Nat} {mtx : matrix} {slices : List (List matrix)}
    (hD : isSquare n mtx) (hG : isGrid (n / s) s slices) (hn : 1 ≤ n) (hs : 1 ≤ s)
    (hdiv : s ∣ n) :
    mergeSlices mtx slices =
      .ok (mkGrid n (fun r c => cell (cell slices (r / s) (c / s)) (r % s) (c % s))) := by
  obtain ⟨hGrep, hGsq⟩ := hG.rep
  have h0 : 0 < n / s := by simpa using div_lt_blocks hs hdiv hn
  have e0 := hGrep.read .mergeSlices h0 h0
  have hlen : (cell slices 0 0).length = s := (hGsq 0 0 h0 h0).1
  obtain ⟨st, e1, _, r1⟩ := mergeSlicesOuter_run hD hG hs hdiv n (Nat.le_refl n)
  simp only [mergeSlices, e0, ok_bind, hlen, hD.1, e1, pure_eq_ok]
  congr 1
  exact (r1.congr (fun _ _ => rfl) (fun r c hr _ => by simp [hr])).eq_mkGrid

/-! ## The kernels `stMultiply` and `addMultiply` -/

theorem mulAddCell_run {n N : Nat} {a b : matrix} (ha : isSquare n a) (hb : isSquare n b)
    (m : Nat) (site : Site) {len : Nat → Nat} {H : Nat → Nat → Int} {c : matrix}
    (hc : Rep N len H c) {i j k : Nat} (hi : i < N) (hj : j < len i)
    (hi' : i < n) (hj' : j < n) (hk : k < n) :
    ∃ c', mulAddCell m site a b i j k c = .ok c' ∧
      Rep N len (fun r q => if r = i ∧ q = j
        then addW m (H i j) (mulW m (cell a i k) (cell b k j)) else H r q) c' := by
  have e1 := hc.read site hi hj
  have e2 := ((isSquare_iff_Rep n a).1 ha).read site hi' hk
  have e3 := ((isSquare_iff_Rep n b).1 hb).read site hk hj'
  obtain ⟨c', e4, r4⟩ := hc.write site hi hj (addW m (H i j) (mulW m (cell a i k) (cell b k j)))
  exact ⟨c', by simp only [mulAddCell, e1, e2, e3, ok_bind, e4], r4⟩

/-- The `k` loop of both kernels at the cell `(i, j)`. -/
theorem dotLoop_run {n N : Nat} {a b : matrix} (ha : isSquare n a) (hb : isSquare n b)
    (m : Nat) (site : Site) {len : Nat → Nat} {H : Nat → Nat → Int} {c : matrix}
    (hc : Rep N len H c) {i j : Nat} (hi : i < N) (hj : j < len i)
    (hi' : i < n) (hj' : j < n) :
    ∃ c', forLoop (mulAddCell m site a b i j) n c = .ok c' ∧
      Rep N len (fun r q => if r = i ∧ q = j
        then dotAcc m (H i j) (fun k => cell a i k * cell b k j) n else H r q) c' :=
  forLoop_inv (mulAddCell m site a b i j)
    (fun k c => Rep N len (fun r q => if r = i ∧ q = j
      then dotAcc m (H i j) (fun k => cell a i k * cell b k j) k else H r q) c)
    n c
    (hc.congr (fun _ _ => rfl) (fun r q _ _ => by
      by_cases h : r = i ∧ q = j
      · obtain ⟨h1, h2⟩ := h; subst h1 h2; simp [dotAcc]
      · simp [h]))
    (fun k c hk hc => by
      obtain ⟨c', e1, r1⟩ := mulAddCell_run ha hb m site hc hi hj hi' hj' hk
      refine ⟨c', e1, r1.congr (fun _ _ => rfl) (fun r q _ _ => ?_)⟩
      by_cases h : r = i ∧ q = j
      · simp [h, dotAcc, mulW]
      · simp [h])

theorem stMultiply_eq_dotAcc {n : Nat} {mtxA mtxB : matrix} (hA : isSquare n mtxA)
    (hB : isSquare n mtxB) (m : Nat) :
    stMultiply m mtxA mtxB =
      .ok (mkGrid n (fun i j => dotAcc m 0 (fun k => cell mtxA i k * cell mtxB k j) n)) := by
  have inner : ∀ i, i < n → ∀ g : matrix,
      Rep n (fun r => if r ≤ i then n else 0)
        (fun r q => if r = i then 0
          else dotAcc m 0 (fun k => cell mtxA r k * cell mtxB k q) n) g →
      ∃ g', forLoop (stMultiplyInner m mtxA mtxB n i) n g = .ok g' ∧
        Rep n (fun r => if r ≤ i then n else 0)
          (fun r q => dotAcc m 0 (fun k => cell mtxA r k * cell mtxB k q) n) g' := by
    intro i hi g hg
    obtain ⟨g', h1, h2⟩ := forLoop_inv (stMultiplyInner m mtxA mtxB n i)
      (fun j g => Rep n (fun r => if r ≤ i then n else 0)
        (fun r q => if r = i ∧ j ≤ q then 0
          else dotAcc m 0 (fun k => cell mtxA r k * cell mtxB k q) n) g) n g
      (hg.congr (fun _ _ => rfl) (fun r c _ _ => by simp))
      (fun j g hj hg => by
        obtain ⟨g', e1, r1⟩ := dotLoop_run hA hB m .stMultiply hg hi (by simp; exact hj) hi hj
        refine ⟨g', e1, r1.congr (fun _ _ => rfl) (fun r' c' _ _ => ?_)⟩
        by_cases h1 : r' = i <;> by_cases h2 : c' = j
        · subst h1 h2; simp
        · subst h1
          by_cases h3 : j ≤ c'
          · have h4 : j + 1 ≤ c' := by omega
            simp [h2, h3, h4]
          · have h4 : ¬ (j + 1 ≤ c') := by omega
            simp [h2, h3, h4]
        · simp [h1]
        · simp [h1])
    refine ⟨g', h1, h2.congr (fun _ _ => rfl) (fun r' c' hr' hc' => ?_)⟩
    have hcs : c' < n := by
      by_cases h : r' ≤ i <;> simp [h] at hc'
      exact hc'
    have : ¬ (n ≤ c') := by omega
    simp [this]
  obtain ⟨g, h1, h2⟩ := forLoop_inv (stMultiplyOuter m mtxA mtxB n)
    (fun i g => Rep n (fun r => if r < i then n else 0)
      (fun r q => dotAcc m 0 (fun k => cell mtxA r k * cell mtxB k q) n) g)
    n (makeNils n)
    (Rep_makeNils _ _ _ (fun _ _ => by simp))
    (fun i g hi hg => by
      obtain ⟨g1, e1, r1⟩ := hg.write_row .stMultiply hi n (0 : Int)
      obtain ⟨g2, e2, r2⟩ := inner i hi g1 (r1.congr
        (fun r' _ => by split_ifs <;> omega) (fun _ _ _ _ => rfl))
      refine ⟨g2, ?_, r2.congr (fun r' _ => ?_) (fun _ _ _ _ => rfl)⟩
      · simp only [stMultiplyOuter, makeInts, e1, ok_bind, e2]
      · split_ifs <;> omega)
  simp only [stMultiply, hA.1, h1]
  congr 1
  exact (h2.congr (fun r hr => by simp [hr]) (fun _ _ _ _ => rfl)).eq_mkGrid

theorem stMultiply_eq {n : Nat} {mtxA mtxB : matrix} (hA : isSquare n mtxA)
    (hB : isSquare n mtxB) (m : Nat) :
    stMultiply m mtxA mtxB = .ok (mkGrid n (fun i j =>
      wrap m (∑ k ∈ Finset.range n, cell mtxA i k * cell mtxB k j))) := by
  rw [stMultiply_eq_dotAcc hA hB m]
  congr 1
  exact mkGrid_congr n _ _ (fun r c _ _ => dotAcc_zero m _ n)

theorem addMultiplyCell_loop (m i j : Nat) (a b : matrix) (k : Nat) (c : matrix) :
    forLoop (addMultiplyCell m i j) k { mtxC := c, mtxA := a, mtxB := b } =
      (forLoop (mulAddCell m .addMultiply a b i j) k c >>=
        fun c' => .ok { mtxC := c', mtxA := a, mtxB := b }) := by
  induction k with
  | zero => rfl
  | succ k ih =>
    rw [forLoop_succ, forLoop_succ, ih]
    cases forLoop (mulAddCell m .addMultiply a b i j) k c with
    | error e => rfl
    | ok c1 =>
      simp only [ok_bind, addMultiplyCell]
      cases mulAddCell m .addMultiply a b i j k c1 <;> rfl

theorem addMultiply_eq {s : Nat} {mtxC mtxA mtxB : matrix} (hC : isSquare s mtxC)
    (hA : isSquare s mtxA) (hB : isSquare s mtxB) (m : Nat) :
    addMultiply m { mtxC := mtxC, mtxA := mtxA, mtxB := mtxB } =
      .ok { mtxC := mkGrid s (fun i j =>
              dotAcc m (cell mtxC i j) (fun k => cell mtxA i k * cell mtxB k j) s),
            mtxA := mtxA, mtxB := mtxB } := by
  have inner : ∀ i, i < s → ∀ g : matrix,
      Rep s (fun _ => s) (fun r q => if r < i
          then dotAcc m (cell mtxC r q) (fun k => cell mtxA r k * cell mtxB k q) s
          else cell mtxC r q) g →
      ∃ g', forLoop (addMultiplyInner m s i) s { mtxC := g, mtxA := mtxA, mtxB := mtxB } =
          .ok { mtxC := g', mtxA := mtxA, mtxB := mtxB } ∧
        Rep s (fun _ => s) (fun r q => if r < i + 1
          then dotAcc m (cell mtxC r q) (fun k => cell mtxA r k * cell mtxB k q) s
          else cell mtxC r q) g' := by
    intro i hi g hg
    obtain ⟨ops, h1, g', hops, h2⟩ := forLoop_inv (addMultiplyInner m s i)
      (fun j ops => ∃ g', ops = { mtxC := g', mtxA := mtxA, mtxB := mtxB } ∧
        Rep s (fun _ => s) (fun r q => if r < i ∨ (r = i ∧ q < j)
          then dotAcc m (cell mtxC r q) (fun k => cell mtxA r k * cell mtxB k q) s
          else cell mtxC r q) g') s { mtxC := g, mtxA := mtxA, mtxB := mtxB }
      ⟨g, rfl, hg.congr (fun _ _ => rfl) (fun r c _ _ => by simp)⟩
      (fun j ops hj hP => by
        obtain ⟨g0, rfl, hg0⟩ := hP
        obtain ⟨g', e1, r1⟩ := dotLoop_run hA hB m .addMultiply hg0 hi hj hi hj
        refine ⟨{ mtxC := g', mtxA := mtxA, mtxB := mtxB }, ?_, g', rfl,
          r1.congr (fun _ _ => rfl) (fun r' c' _ _ => ?_)⟩
        · simp only [addMultiplyInner, addMultiplyCell_loop, e1, ok_bind]
        · by_cases h1 : r' = i <;> by_cases h2 : c' = j
          · subst h1 h2; simp
          · subst h1
            by_cases h3 : c' < j
            · have h4 : c' < j + 1 := by omega
              simp [h2, h3, h4]
            · have h4 : ¬ (c' < j + 1) := by omega
              simp [h2, h3, h4]
          · simp [h1]
          · simp [h1])
    subst hops
    refine ⟨g', h1, h2.congr (fun _ _ => rfl) (fun r' c' _ hc' => ?_)⟩
    by_cases h1 : r' = i
    · subst h1; simp [hc']
    · by_cases h3 : r' < i
      · have h4 : r' < i + 1 := by omega
        simp [h1, h3, h4]
      · have h4 : ¬ (r' < i + 1) := by omega
        simp [h1, h3, h4]
  obtain ⟨ops, h1, g', hops, h2⟩ := forLoop_inv (addMultiplyOuter m s)
    (fun i ops => ∃ g', ops = { mtxC := g', mtxA := mtxA, mtxB := mtxB } ∧
      Rep s (fun _ => s) (fun r q => if r < i
        then dotAcc m (cell mtxC r q) (fun k => cell mtxA r k * cell mtxB k q) s
        else cell mtxC r q) g') s { mtxC := mtxC, mtxA := mtxA, mtxB := mtxB }
    ⟨mtxC, rfl, ((isSquare_iff_Rep s mtxC).1 hC).congr (fun _ _ => rfl) (fun r c _ _ => by simp)⟩
    (fun i ops hi hP => by
      obtain ⟨g0, rfl, hg0⟩ := hP
      obtain ⟨g', e1, r1⟩ := inner i hi g0 hg0
      exact ⟨_, e1, g', rfl, r1⟩)
  subst hops
  simp only [addMultiply, hA.1, h1]
  congr 2
  exact (h2.congr (fun _ _ => rfl) (fun r c hr _ => by simp [hr])).eq_mkGrid

/-! ## `mtMultiply` -/

theorem isGrid_mkGrid (b s : Nat) (F : Nat → Nat → matrix)
    (h : ∀ i j, i < b → j < b → isSquare s (F i j)) : isGrid b s (mkGrid b F) := by
  refine ⟨by simp [mkGrid], fun r hr => ?_⟩
  simp only [mkGrid, List.mem_map, List.mem_range] at hr
  obtain ⟨i, hi, rfl⟩ := hr
  refine ⟨by simp, fun t ht => ?_⟩
  simp only [List.mem_map, List.mem_range] at ht
  obtain ⟨j, hj, rfl⟩ := ht
  exact h i j hi hj

theorem mtAlloc_eq (n : Nat) :
    forLoop (mtAlloc n) n (makeNils n) = .ok (mkGrid n (fun _ _ => 0)) := by
  obtain ⟨g, h1, h2⟩ := forLoop_inv (mtAlloc n)
    (fun i g => Rep n (fun r => if r < i then n else 0) (fun _ _ => (0 : Int)) g)
    n (makeNils n)
    (Rep_makeNils _ _ _ (fun _ _ => by simp))
    (fun i g hi hg => by
      obtain ⟨g1, e1, r1⟩ := hg.write_row .mtMultiply hi n (0 : Int)
      refine ⟨g1, e1, r1.congr (fun r' _ => ?_) (fun r c _ _ => by simp)⟩
      split_ifs <;> omega)
  rw [h1]
  congr 1
  exact (h2.congr (fun r hr => by simp [hr]) (fun _ _ _ _ => rfl)).eq_mkGrid

theorem partialTile_zero (m s : Nat) (A B : matrix) (i j : Nat) :
    partialTile m s A B 0 i j = mkGrid s (fun _ _ => 0) := by
  unfold partialTile
  exact mkGrid_congr s _ _ (fun r c _ _ => by simp [wrap_zero])

/-- One task of block `(i, j)`: the tile goes from `kb` to `kb + 1` partial
products. -/
theorem isSquare_tileOf (s : Nat) (mtx : matrix) (i j : Nat) : isSquare s (tileOf s mtx i j) :=
  isSquare_mkGrid s _

theorem isSquare_partialTile (m s : Nat) (A B : matrix) (kb i j : Nat) :
    isSquare s (partialTile m s A B kb i j) :=
  isSquare_mkGrid s _

theorem partialTile_step {s : Nat} (m : Nat) (A B : matrix) (hs : 1 ≤ s) (kb i j : Nat) :
    addMultiply m { mtxC := partialTile m s A B kb i j, mtxA := tileOf s A i kb,
                    mtxB := tileOf s B kb j } =
      .ok { mtxC := partialTile m s A B (kb + 1) i j, mtxA := tileOf s A i kb,
            mtxB := tileOf s B kb j } := by
  rw [addMultiply_eq (isSquare_partialTile m s A B kb i j) (isSquare_tileOf s A i kb)
    (isSquare_tileOf s B kb j) m]
  congr 2
  unfold partialTile
  refine mkGrid_congr s _ _ (fun r c hr hc => ?_)
  rw [dotAcc_pos m _ _ hs, cell_mkGrid s _ hr hc, wrap_wrap_add, Nat.succ_mul,
    Finset.sum_range_add]
  congr 2
  refine Finset.sum_congr rfl (fun k hk => ?_)
  have hk' : k < s := Finset.mem_range.1 hk
  rw [tileOf, tileOf, cell_mkGrid s _ hr hk', cell_mkGrid s _ hk' hc]

/-- The tasks of block `(i, j)` turn the zero tile into the finished tile and
leave every other tile of the grid alone. -/
theorem mtBlock_run {n s : Nat} (m : Nat) (A B : matrix) (hs : 1 ≤ s) {i j : Nat}
    (hi : i < n / s) (hj : j < n / s) (H : Nat → Nat → matrix)
    (hH : H i j = partialTile m s A B 0 i j) (g : List (List matrix))
    (hg : Rep (n / s) (fun _ => n / s) H g) :
    ∃ g', mtBlock m (mkGrid (n / s) (tileOf s A)) (mkGrid (n / s) (tileOf s B)) (n / s) i j g
        = .ok g' ∧
      Rep (n / s) (fun _ => n / s) (fun r c => if r = i ∧ c = j
        then partialTile m s A B (n / s) i j else H r c) g' :=
  forLoop_inv (mtTask m (mkGrid (n / s) (tileOf s A)) (mkGrid (n / s) (tileOf s B)) i j)
    (fun kb g => Rep (n / s) (fun _ => n / s) (fun r c => if r = i ∧ c = j
      then partialTile m s A B kb i j else H r c) g)
    (n / s) g
    (hg.congr (fun _ _ => rfl) (fun r c _ _ => by
      by_cases h : r = i ∧ c = j
      · obtain ⟨h1, h2⟩ := h; subst h1 h2; simp [hH]
      · simp [h]))
    (fun kb g hkb hg => by
      have e1 := hg.read .mtMultiply hi hj
      simp only [true_and, if_true] at e1
      have e2 := (Rep_mkGrid (n / s) (tileOf s A)).read .mtMultiply hi hkb
      have e3 := (Rep_mkGrid (n / s) (tileOf s B)).read .mtMultiply hkb hj
      have e4 := partialTile_step m A B hs kb i j
      obtain ⟨g', e5, r5⟩ := hg.write .mtMultiply hi hj (partialTile m s A B (kb + 1) i j)
      refine ⟨g', ?_, r5.congr (fun _ _ => rfl) (fun r c _ _ => ?_)⟩
      · simp only [mtTask, e1, e2, e3, e4, ok_bind, e5]
      · by_cases h : r = i ∧ c = j
        · simp [h]
        · simp [h])

/-- The block loops of `mtMultiply` started on the grid of zero tiles end on
the grid of finished tiles. -/
theorem mtBlocks_run {n s : Nat} (m : Nat) (A B : matrix) (hs : 1 ≤ s) :
    forLoop (mtBlockRow m (mkGrid (n / s) (tileOf s A)) (mkGrid (n / s) (tileOf s B)) (n / s))
        (n / s) (mkGrid (n / s) (fun i j => partialTile m s A B 0 i j)) =
      .ok (mkGrid (n / s) (fun i j => partialTile m s A B (n / s) i j)) := by
  have inner : ∀ i, i < n / s → ∀ g : List (List matrix),
      Rep (n / s) (fun _ => n / s) (fun r c => if r < i
          then partialTile m s A B (n / s) r c else partialTile m s A B 0 r c) g →
      ∃ g', mtBlockRow m (mkGrid (n / s) (tileOf s A)) (mkGrid (n / s) (tileOf s B)) (n / s) i g
          = .ok g' ∧
        Rep (n / s) (fun _ => n / s) (fun r c => if r < i + 1
          then partialTile m s A B (n / s) r c else partialTile m s A B 0 r c) g' := by
    intro i hi g hg
    obtain ⟨g', h1, h2⟩ := forLoop_inv
      (mtBlock m (mkGrid (n / s) (tileOf s A)) (mkGrid (n / s) (tileOf s B)) (n / s) i)
      (fun j g => Rep (n / s) (fun _ => n / s) (fun r c => if r < i ∨ (r = i ∧ c < j)
          then partialTile m s A B (n / s) r c else partialTile m s A B 0 r c) g)
      (n / s) g
      (hg.congr (fun _ _ => rfl) (fun r c _ _ => by simp))
      (fun j g hj hg => by
        obtain ⟨g', e1, r1⟩ := mtBlock_run m A B hs hi hj _ (by simp) g hg
        refine ⟨g', e1, r1.congr (fun _ _ => rfl) (fun r' c' _ _ => ?_)⟩
        by_cases h1 : r' = i <;> by_cases h2 : c' = j
        · subst h1 h2; simp
        · subst h1
          by_cases h3 : c' < j
          · have h4 : c' < j + 1 := by omega
            simp [h2, h3, h4]
          · have h4 : ¬ (c' < j + 1) := by omega
            simp [h2, h3, h4]
        · simp [h1]
        · simp [h1])
    refine ⟨g', h1, h2.congr (fun _ _ => rfl) (fun r' c' _ hc' => ?_)⟩
    by_cases h1 : r' = i
    · subst h1; simp [hc']
    · by_cases h3 : r' < i
      · have h4 : r' < i + 1 := by omega
        simp [h1, h3, h4]
      · have h4 : ¬ (r' < i + 1) := by omega
        simp [h1, h3, h4]
  obtain ⟨g, h1, h2⟩ := forLoop_inv
    (mtBlockRow m (mkGrid (n / s) (tileOf s A)) (mkGrid (n / s) (tileOf s B)) (n / s))
    (fun i g => Rep (n / s) (fun _ => n / s) (fun r c => if r < i
      then partialTile m s A B (n / s) r c else partialTile m s A B 0 r c) g)
    (n / s) (mkGrid (n / s) (fun i j => partialTile m s A B 0 i j))
    ((Rep_mkGrid _ _).congr (fun _ _ => rfl) (fun r c _ _ => by simp))
    (fun i g hi hg => inner i hi g hg)
  rw [h1]
  congr 1
  exact (h2.congr (fun _ _ => rfl) (fun r c hr _ => by simp [hr])).eq_mkGrid

/-- The blocked kernel computes, in every cell, the machine-integer sum of
the `n` products of the cell. -/
theorem mtMultiply_eq {n : Nat} {mtxA mtxB : matrix} (hA : isSquare n mtxA)
    (hB : isSquare n mtxB) (m : Nat) {s : Nat} (hn : 1 ≤ n) (hs : 1 ≤ s) (hdiv : s ∣ n) :
    mtMultiply m mtxA mtxB s = .ok (mkGrid n (fun i j =>
      wrap m (∑ k ∈ Finset.range n, cell mtxA i k * cell mtxB k j))) := by
  have hs' : s ≠ 0 := by omega
  have hbs : n / s * s = n := Nat.div_mul_cancel hdiv
  have hZ : isSquare n (mkGrid n (fun _ _ => (0 : Int))) := isSquare_mkGrid n _
  have hC0 : mkGrid (n / s) (tileOf s (mkGrid n (fun _ _ => (0 : Int)))) =
      mkGrid (n / s) (fun i j => partialTile m s mtxA mtxB 0 i j) := by
    refine mkGrid_congr _ _ _ (fun i j hi hj => ?_)
    rw [partialTile_zero, tileOf]
    refine mkGrid_congr _ _ _ (fun r c hr hc => ?_)
    have h1 : (i + 1) * s ≤ n / s * s := Nat.mul_le_mul_right s hi
    have h2 : (j + 1) * s ≤ n / s * s := Nat.mul_le_mul_right s hj
    rw [Nat.succ_mul] at h1 h2
    exact cell_mkGrid n _ (by omega) (by omega)
  have hG : isGrid (n / s) s (mkGrid (n / s) (fun i j => partialTile m s mtxA mtxB (n / s) i j)) :=
    isGrid_mkGrid _ _ _ (fun i j _ _ => isSquare_partialTile m s mtxA mtxB _ i j)
  simp only [mtMultiply, getSlices_eq hA hs, getSlices_eq hB hs, ok_bind, hA.1, mtAlloc_eq,
    getSlices_eq hZ hs, goDiv, hs', if_false, hC0, mtBlocks_run m mtxA mtxB hs,
    mergeSlices_eq hZ hG hn hs hdiv]
  congr 1
  refine mkGrid_congr n _ _ (fun r c hr hc => ?_)
  rw [cell_mkGrid _ _ (div_lt_blocks hs hdiv hr) (div_lt_blocks hs hdiv hc), partialTile,
    cell_mkGrid _ _ (Nat.mod_lt r (by omega)) (Nat.mod_lt c (by omega)), hbs,
    Nat.div_add_mod', Nat.div_add_mod']

theorem mtMultiply_eq_stMultiply {n : Nat} {mtxA mtxB : matrix} (hA : isSquare n mtxA)
    (hB : isSquare n mtxB) (m : Nat) {s : Nat} (hn : 1 ≤ n) (hs : 1 ≤ s) (hdiv : s ∣ n) :
    mtMultiply m mtxA mtxB s = stMultiply m mtxA mtxB := by
  rw [mtMultiply_eq hA hB m hn hs hdiv, stMultiply_eq hA hB m]

/-! ## Faults of the blocked kernel outside its preconditions -/

/-- A loop that has faulted stays faulted. -/
theorem forLoop_error_mono {σ : Type} (body : Nat → σ → Except Fault σ) (init : σ) (e : Fault)
    (k : Nat) (h : forLoop body k init = .error e) (n : Nat) (hn : k ≤ n) :
    forLoop body n init = .error e := by
  induction n with
  | zero =>
    have : k = 0 := by omega
    subst this; exact h
  | succ n ih =>
    rcases Nat.eq_or_lt_of_le hn with hk | hk
    · subst hk; exact h
    · rw [forLoop_succ, ih (by omega)]; rfl

/-- A loop whose iteration `k` faults, faults. -/
theorem forLoop_error_at {σ : Type} (body : Nat → σ → Except Fault σ) (init st : σ) (e : Fault)
    (k : Nat) (h : forLoop body k init = .ok st) (hk : body k st = .error e) (n : Nat)
    (hn : k < n) : forLoop body n init = .error e :=
  forLoop_error_mono body init e (k + 1) (by rw [forLoop_succ, h, ok_bind, hk]) n hn

theorem wrap_inRange {m : Nat} (hm : 0 < m) (x : Int) : inRange m (wrap m x) := by
  have hm' : (0 : Int) < (m : Int) := by exact_mod_cast hm
  have h1 := Int.emod_nonneg (x + ((m / 2 : Nat) : Int)) (ne_of_gt hm')
  have h2 := Int.emod_lt_of_pos (x + ((m / 2 : Nat) : Int)) hm'
  refine Or.inr ⟨?_, ?_⟩ <;> unfold wrap <;> omega

/-- Up to the merge, the blocked kernel needs no divisibility: it hands
`mergeSlices` the zero matrix and the `n/s` by `n/s` grid of finished tiles. -/
theorem mtMultiply_eq_merge {n : Nat} {mtxA mtxB : matrix} (hA : isSquare n mtxA)
    (hB : isSquare n mtxB) (m : Nat) {s : Nat} (hs : 1 ≤ s) :
    mtMultiply m mtxA mtxB s = mergeSlices (mkGrid n (fun _ _ => (0 : Int)))
      (mkGrid (n / s) (fun i j => partialTile m s mtxA mtxB (n / s) i j)) := by
  have hs' : s ≠ 0 := by omega
  have hbs : n / s * s ≤ n := Nat.div_mul_le_self n s
  have hZ : isSquare n (mkGrid n (fun _ _ => (0 : Int))) := isSquare_mkGrid n _
  have hC0 : mkGrid (n / s) (tileOf s (mkGrid n (fun _ _ => (0 : Int)))) =
      mkGrid (n / s) (fun i j => partialTile m s mtxA mtxB 0 i j) := by
    refine mkGrid_congr _ _ _ (fun i j hi hj => ?_)
    rw [partialTile_zero, tileOf]
    refine mkGrid_congr _ _ _ (fun r c hr hc => ?_)
    have h1 : (i + 1) * s ≤ n / s * s := Nat.mul_le_mul_right s hi
    have h2 : (j + 1) * s ≤ n / s * s := Nat.mul_le_mul_right s hj
    rw [Nat.succ_mul] at h1 h2
    exact cell_mkGrid n _ (by omega) (by omega)
  simp only [mtMultiply, getSlices_eq hA hs, getSlices_eq hB hs, ok_bind, hA.1, mtAlloc_eq,
    getSlices_eq hZ hs, goDiv, hs', if_false, hC0, mtBlocks_run m mtxA mtxB hs]

/-- The inner loop of `mergeSlices` in row `i` over a grid of `b` by `b`
tiles runs without a fault as long as the column stays below `b * s`. -/
theorem mergeSlicesInner_run_within {n s b : Nat} {slices : List (List matrix)}
    (hG : isGrid b s slices) (hs : 1 ≤ s) {i : Nat} (hi : i < n) (hib : i / s < b)
    (H : Nat → Nat → Int) (g : matrix) (hg : Rep n (fun _ => n) H g) (J : Nat) (hJ : J ≤ n)
    (hJb : J ≤ b * s) :
    ∃ st', forLoop (mergeSlicesInner slices s i (i % s)) J (g, 0) = .ok st' ∧ st'.2 = J % s ∧
      Rep n (fun _ => n) (fun r c => if r = i ∧ c < J
        then cell (cell slices (r / s) (c / s)) (r % s) (c % s) else H r c) st'.1 := by
  obtain ⟨hGrep, hGsq⟩ := hG.rep
  have hs' : s ≠ 0 := by omega
  exact forLoop_inv (mergeSlicesInner slices s i (i % s))
    (fun j st => st.2 = j % s ∧ Rep n (fun _ => n) (fun r c => if r = i ∧ c < j
      then cell (cell slices (r / s) (c / s)) (r % s) (c % s) else H r c) st.1)
    J (g, 0)
    ⟨by simp, hg.congr (fun _ _ => rfl) (fun r c _ _ => by simp)⟩
    (fun j st hj hP => by
      obtain ⟨g, col⟩ := st
      obtain ⟨hcol, hg⟩ := hP
      simp only at hcol hg
      subst hcol
      have hjn : j < n := by omega
      have hjb : j / s < b := (Nat.div_lt_iff_lt_mul (by omega)).2 (by omega)
      obtain ⟨row, hrow, _, _⟩ := hg.2 i hi
      have e1 := hGrep.read .mergeSlices hib hjb
      have hT := (isSquare_iff_Rep s _).1 (hGsq (i / s) (j / s) hib hjb)
      have e2 := hT.read .mergeSlices (Nat.mod_lt i (by omega : s > 0))
        (Nat.mod_lt j (by omega : s > 0))
      obtain ⟨g', e3, r3⟩ := hg.write .mergeSlices hi hjn
        (cell (cell slices (i / s) (j / s)) (i % s) (j % s))
      refine ⟨(g', (j + 1) % s), ?_, rfl, r3.congr (fun _ _ => rfl) (fun r' c' _ _ => ?_)⟩
      · simp only [mergeSlicesInner, hrow, goDiv, goMod, hs', if_false, ok_bind, e1, e2, e3,
          pure_eq_ok, Nat.mod_add_mod]
      · by_cases h1 : r' = i <;> by_cases h2 : c' = j
        · subst h1 h2; simp
        · subst h1
          by_cases h3 : c' < j
          · have h4 : c' < j + 1 := by omega
            simp [h2, h3, h4]
          · have h4 : ¬ (c' < j + 1) := by omega
            simp [h2, h3, h4]
        · simp [h1]
        · simp [h1])

/-- In row `i`, the iteration at column `b * s` of the inner loop of
`mergeSlices` faults: the tile index `b` is out of range. -/
theorem mergeSlicesInner_fault {n s b : Nat} {slices : List (List matrix)}
    (hG : isGrid b s slices) (hs : 1 ≤ s) {i : Nat} (hi : i < n) (hib : i / s < b)
    (H : Nat → Nat → Int) (g : matrix) (hg : Rep n (fun _ => n) H g) (row col : Nat) :
    mergeSlicesInner slices s i row (b * s) (g, col) =
      .error (.indexOutOfRange .mergeSlices) := by
  obtain ⟨hGrep, _⟩ := hG.rep
  have hs' : s ≠ 0 := by omega
  obtain ⟨r, hr, _, _⟩ := hg.2 i hi
  obtain ⟨grow, hgrow, hlen, _⟩ := hGrep.2 (i / s) hib
  have hdiv : b * s / s = b := Nat.mul_div_cancel b (by omega)
  have hnone : grow[b]? = none := List.getElem?_eq_none (Nat.le_of_eq hlen)
  simp only [mergeSlicesInner, hr, goDiv, hs', if_false, ok_bind, hdiv, readCell, hgrow, hnone,
    error_bind]

/-- With a tile size that leaves a remainder, `mergeSlices` faults on the
finished grid. -/
theorem mergeSlices_fault {n s : Nat} {mtx : matrix} {slices : List (List matrix)}
    (hD : isSquare n mtx) (hG : isGrid (n / s) s slices) (hn : 1 ≤ n) (hs : 1 ≤ s)
    (hnd : ¬ s ∣ n) : mergeSlices mtx slices = .error (.indexOutOfRange .mergeSlices) := by
  obtain ⟨hGrep, hGsq⟩ := hG.rep
  have hs' : s ≠ 0 := by omega
  rcases Nat.eq_zero_or_pos (n / s) with hb | hb
  · have hG0 : slices = [] := List.length_eq_zero.1 (by rw [hG.1, hb])
    subst hG0
    simp [mergeSlices, readCell]
  · have e0 := hGrep.read .mergeSlices hb hb
    have hlen : (cell slices 0 0).length = s := (hGsq 0 0 hb hb).1
    have hlt : n / s * s < n := by
      have h1 : n / s * s ≤ n := Nat.div_mul_le_self n s
      rcases Nat.eq_or_lt_of_le h1 with h2 | h2
      · exact absurd (Dvd.intro_left _ h2) hnd
      · exact h2
    have h0s : 0 / s < n / s := by simpa using hb
    have hD' := (isSquare_iff_Rep n mtx).1 hD
    obtain ⟨st, e1, _, r1⟩ := mergeSlicesInner_run_within hG hs (i := 0) hn h0s _ mtx hD'
      (n / s * s) (by omega) (Nat.le_refl _)
    have e2 : mergeSlicesInner slices s 0 (0 % s) (n / s * s) st =
        .error (.indexOutOfRange .mergeSlices) :=
      mergeSlicesInner_fault hG hs hn h0s _ st.1 r1 _ st.2
    have e3 := forLoop_error_at _ _ _ _ _ e1 e2 n hlt
    have e4 : mergeSlicesOuter slices n s 0 (mtx, 0) = .error (.indexOutOfRange .mergeSlices) := by
      simp only [mergeSlicesOuter]
      rw [show (0 : Nat) = 0 % s by simp] 
      simp only [Nat.zero_mod] at e3 ⊢
      rw [e3]; rfl
    have e5 := forLoop_error_at (mergeSlicesOuter slices n s) (mtx, 0) (mtx, 0) _ 0 rfl e4 n hn
    simp only [mergeSlices, e0, ok_bind, hlen, hD.1, e5, error_bind]

/-! ## Order of the tasks of a block -/

theorem sum_map_range (f : Nat → Int) (b : Nat) :
    ((List.range b).map f).sum = ∑ k ∈ Finset.range b, f k := by
  induction b with
  | zero => simp
  | succ b ih => rw [List.range_succ, List.map_append, List.sum_append, ih,
      Finset.sum_range_succ]; simp

theorem sum_blockSum (s : Nat) (A B : matrix) (i j r c b : Nat) :
    ∑ kb ∈ Finset.range b, blockSum s A B i j r c kb =
      ∑ k ∈ Finset.range (b * s), cell A (i * s + r) k * cell B k (j * s + c) := by
  induction b with
  | zero => simp
  | succ b ih => rw [Finset.sum_range_succ, ih, Nat.succ_mul, Finset.sum_range_add]; rfl

/-- One task on a tile that holds wrapped sums `acc`: the task `kb` adds its
block sum. -/
theorem addMultiply_blockSum {s : Nat} (m : Nat) (A B : matrix) (hs : 1 ≤ s) (kb i j : Nat)
    (acc : Nat → Nat → Int) :
    addMultiply m { mtxC := mkGrid s (fun r c => wrap m (acc r c)), mtxA := tileOf s A i kb,
                    mtxB := tileOf s B kb j } =
      .ok { mtxC := mkGrid s (fun r c => wrap m (acc r c + blockSum s A B i j r c kb)),
            mtxA := tileOf s A i kb, mtxB := tileOf s B kb j } := by
  rw [addMultiply_eq (isSquare_mkGrid s _) (isSquare_tileOf s A i kb)
    (isSquare_tileOf s B kb j) m]
  congr 2
  refine mkGrid_congr s _ _ (fun r c hr hc => ?_)
  rw [dotAcc_pos m _ _ hs, cell_mkGrid s _ hr hc, wrap_wrap_add, blockSum]
  congr 2
  refine Finset.sum_congr rfl (fun k hk => ?_)
  have hk' : k < s := Finset.mem_range.1 hk
  rw [tileOf, tileOf, cell_mkGrid s _ hr hk', cell_mkGrid s _ hk' hc]

/-- The tasks `ks` of block `(i, j)`, one at a time in the order of the list,
add their block sums to the tile and leave every other tile alone. -/
theorem runInOrder_tasks {n s : Nat} (m : Nat) (A B : matrix) (hs : 1 ≤ s) {i j : Nat}
    (hi : i < n / s) (hj : j < n / s) (ks : List Nat) (hks : ∀ k ∈ ks, k < n / s) :
    ∀ (acc : Nat → Nat → Int) (H : Nat → Nat → matrix)
      (_ : H i j = mkGrid s (fun r c => wrap m (acc r c))) (g : List (List matrix))
      (_ : Rep (n / s) (fun _ => n / s) H g),
    ∃ g', runInOrder (mtTask m (mkGrid (n / s) (tileOf s A)) (mkGrid (n / s) (tileOf s B)) i j)
        ks g = .ok g' ∧
      Rep (n / s) (fun _ => n / s) (fun r c => if r = i ∧ c = j
        then mkGrid s (fun r c =>
          wrap m (acc r c + (ks.map (blockSum s A B i j r c)).sum))
        else H r c) g' := by
  induction ks with
  | nil =>
    intro acc H hH g hg
    refine ⟨g, rfl, hg.congr (fun _ _ => rfl) (fun r c _ _ => ?_)⟩
    by_cases h : r = i ∧ c = j
    · obtain ⟨h1, h2⟩ := h; subst h1 h2; simp [hH]
    · simp [h]
  | cons k ks ih =>
    intro acc H hH g hg
    have hk : k < n / s := hks k (List.mem_cons_self k ks)
    have e1 := hg.read .mtMultiply hi hj
    rw [hH] at e1
    have e2 := (Rep_mkGrid (n / s) (tileOf s A)).read .mtMultiply hi hk
    have e3 := (Rep_mkGrid (n / s) (tileOf s B)).read .mtMultiply hk hj
    have e4 := addMultiply_blockSum m A B hs k i j acc
    obtain ⟨g1, e5, r5⟩ := hg.write .mtMultiply hi hj
      (mkGrid s (fun r c => wrap m (acc r c + blockSum s A B i j r c k)))
    obtain ⟨g2, e6, r6⟩ := ih (fun k' hk' => hks k' (List.mem_cons_of_mem k hk'))
      (fun r c => acc r c + blockSum s A B i j r c k) _ (by simp) g1 r5
    refine ⟨g2, ?_, r6.congr (fun _ _ => rfl) (fun r c _ _ => ?_)⟩
    · have e7 : mtTask m (mkGrid (n / s) (tileOf s A)) (mkGrid (n / s) (tileOf s B)) i j k g
          = .ok g1 := by
        simp only [mtTask, e1, e2, e3, e4, ok_bind, e5]
      simp only [runInOrder, e7, e6]
    · by_cases h : r = i ∧ c = j
      · simp only [h, and_self, if_true, List.map_cons, List.sum_cons, add_assoc]
      · simp [h]

/-! ## The command-line validation: facts -/

/-- What the validation of `main` lets through: exactly the integer pairs with
`n ≥ 4`, `s ≠ 0` and `s` dividing `n`; the sign of `s` is not looked at. -/
theorem mainValidation_multiply_iff (n s : Int) :
    mainValidation [some n, some s] = .ok (.multiply n s) ↔ 4 ≤ n ∧ s ≠ 0 ∧ s ∣ n := by
  by_cases h4 : n < 4
  · simp [mainValidation, h4]
  · by_cases hs : s = 0
    · subst hs
      simp [mainValidation, h4, goRem]
    · by_cases hr : Int.tmod n s = 0
      · have hd : s ∣ n := Int.dvd_of_tmod_eq_zero hr
        simp [mainValidation, h4, goRem, hs, hr, hd]
        omega
      · have hd : ¬ s ∣ n := fun h => hr (Int.tmod_eq_zero_of_dvd h)
        simp [mainValidation, h4, goRem, hs, hr, hd]

/-! ## The WaitGroup protocol: the invariant -/

theorem wgStep_inv (b : Nat) (st st' : WgState) (e : WgEvent) (h : wgInv b st)
    (hs : wgStep b st e = some st') : wgInv b st' := by
  obtain ⟨pc, counter, running⟩ := st
  cases e with
  | mainStep =>
    cases pc with
    | outer i =>
      simp only [wgStep] at hs
      split_ifs at hs <;> cases hs <;> exact h
    | inner i j =>
      simp only [wgStep] at hs
      simp only [wgInv] at h
      obtain ⟨h1, h2⟩ := h
      split_ifs at hs <;> cases hs
      · simp only [wgInv]
        subst h1 h2
        refine ⟨Nat.zero_le b, by simp, by simp, by simp⟩
      · exact ⟨h1, h2⟩
    | spawn i j k =>
      simp only [wgStep] at hs
      simp only [wgInv] at h
      obtain ⟨h1, h2, h3, h4⟩ := h
      split_ifs at hs with hk <;> cases hs
      · simp only [wgInv, List.length_cons, List.mem_cons]
        refine ⟨hk, ?_, by omega, ?_⟩
        · rw [h2]; push_cast; omega
        · rintro t (rfl | ht)
          · exact ⟨rfl, rfl⟩
          · exact h4 t ht
      · simp only [wgInv]
        have hkb : b - k = 0 := by omega
        refine ⟨by rw [h2, hkb]; simp, by omega, h4⟩
    | wait i j =>
      simp only [wgStep] at hs
      simp only [wgInv] at h
      obtain ⟨h1, h2, h3⟩ := h
      split_ifs at hs with hc
      cases hs
      simp only [wgInv]
      refine ⟨hc, ?_⟩
      have : (running.length : Int) = 0 := by rw [← h1]; exact hc
      exact List.length_eq_zero.1 (by exact_mod_cast this)
    | merge => simp [wgStep] at hs
  | taskDone idx =>
    simp only [wgStep] at hs
    split_ifs at hs with hidx
    cases hs
    have hlen : (running.eraseIdx idx).length = running.length - 1 :=
      List.length_eraseIdx_of_lt hidx
    have hmem : ∀ t ∈ running.eraseIdx idx, t ∈ running := fun t ht =>
      List.mem_of_mem_eraseIdx ht
    simp only at hidx
    cases pc with
    | outer i => simp only [wgInv] at h; rw [h.2] at hidx; simp at hidx
    | inner i j => simp only [wgInv] at h; rw [h.2] at hidx; simp at hidx
    | merge => simp only [wgInv] at h; rw [h.2] at hidx; simp at hidx
    | spawn i j k =>
      simp only [wgInv] at h ⊢
      obtain ⟨h1, h2, h3, h4⟩ := h
      refine ⟨h1, by rw [hlen, h2]; omega, by omega, fun t ht => h4 t (hmem t ht)⟩
    | wait i j =>
      simp only [wgInv] at h ⊢
      obtain ⟨h1, h2, h3⟩ := h
      refine ⟨by rw [hlen, h1]; omega, by omega, fun t ht => h3 t (hmem t ht)⟩

theorem wgRun_inv (b : Nat) (es : List WgEvent) :
    ∀ st st', wgInv b st → wgRun b es st = some st' → wgInv b st' := by
  induction es with
  | nil => intro st st' h hr; cases hr; exact h
  | cons e es ih =>
    intro st st' h hr
    simp only [wgRun] at hr
    cases hstep : wgStep b st e with
    | none => rw [hstep] at hr; cases hr
    | some st1 =>
      rw [hstep] at hr
      exact ih st1 st' (wgStep_inv b st st1 e h hstep) hr

theorem wgInv_init (b : Nat) : wgInv b wgInit := ⟨rfl, rfl⟩

/-! ## `stringMatrix` -/

/-- When the last piece of the text is not empty and every line fits the
scanner's buffer, the scanner yields every piece of `strings.Split`. -/
theorem scanLines_eq_map (s : List Char)
    (h1 : (splitOn newline s).getLast? ≠ some [])
    (h2 : ∀ l ∈ splitOn newline s, l.length < maxScanTokenSize) :
    scanLines s = (splitOn newline s).map dropCR := by
  have h3 : (splitOn newline s).takeWhile (fun l => decide (l.length < maxScanTokenSize)) =
      splitOn newline s :=
    List.takeWhile_eq_self_iff.2 (fun l hl => by simpa using h2 l hl)
  simp only [scanLines, h1, if_false, h3]

theorem fieldValue_of_lt (line : List Char) (j : Nat) (el : List Char)
    (h : (splitOn space line)[j]? = some el) : fieldValue line j = goAtoi el := by
  simp only [fieldValue, h]

theorem fieldValue_of_ge (line : List Char) (j : Nat) (h : (splitOn space line).length ≤ j) :
    fieldValue line j = 0 := by
  simp only [fieldValue, List.getElem?_eq_none h]

/-- The fields of one line are stored in row `i`, which was zero. -/
theorem stringMatrixInner_run {n : Nat} (line : List Char) {i : Nat} (hi : i < n)
    (hfields : (splitOn space line).length ≤ n) (len : Nat → Nat) (hlen : len i = n)
    (H : Nat → Nat → Int) (hH : ∀ c, H i c = 0) (g : matrix) (hg : Rep n len H g) :
    ∃ g', forLoop (stringMatrixInner (splitOn space line) i) (splitOn space line).length g
        = .ok g' ∧
      Rep n len (fun r c => if r = i then fieldValue line c else H r c) g' := by
  obtain ⟨g', e1, r1⟩ := forLoop_inv (stringMatrixInner (splitOn space line) i)
    (fun j g => Rep n len (fun r c => if r = i ∧ c < j then fieldValue line c else H r c) g)
    (splitOn space line).length g
    (hg.congr (fun _ _ => rfl) (fun r c _ _ => by simp))
    (fun j g hj hg => by
      have hel : (splitOn space line)[j]? = some ((splitOn space line)[j]) :=
        List.getElem?_eq_getElem hj
      obtain ⟨g', e1, r1⟩ := hg.write .stringMatrix (j := j) hi (by rw [hlen]; omega)
        (goAtoi ((splitOn space line)[j]))
      refine ⟨g', ?_, r1.congr (fun _ _ => rfl) (fun r c _ _ => ?_)⟩
      · simp only [stringMatrixInner, hel, e1]
      · by_cases h1 : r = i <;> by_cases h2 : c = j
        · subst h1 h2; simp [fieldValue_of_lt line c _ hel]
        · subst h1
          by_cases h3 : c < j
          · have h4 : c < j + 1 := by omega
            simp [h2, h3, h4]
          · have h4 : ¬ (c < j + 1) := by omega
            simp [h2, h3, h4]
        · simp [h1]
        · simp [h1])
  refine ⟨g', e1, r1.congr (fun _ _ => rfl) (fun r c _ _ => ?_)⟩
  by_cases h1 : r = i
  · subst h1
    by_cases h3 : c < (splitOn space line).length
    · simp [h3]
    · simp [h3, hH, fieldValue_of_ge line c (by omega)]
  · simp [h1]

/-- On a text whose pieces are all scanned and have at most `n` fields each,
`stringMatrix` returns the `n` by `n` matrix of the field values. -/
theorem stringMatrix_eq (s : List Char)
    (h1 : (splitOn newline s).getLast? ≠ some [])
    (h2 : ∀ l ∈ splitOn newline s, l.length < maxScanTokenSize)
    (h3 : ∀ l ∈ splitOn newline s,
      (splitOn space (dropCR l)).length ≤ (splitOn newline s).length) :
    stringMatrix s = .ok (mkGrid (splitOn newline s).length
      (fun i j => fieldValue (dropCR ((splitOn newline s).getD i [])) j)) := by
  have hlines := scanLines_eq_map s h1 h2
  have hlen : (scanLines s).length = (splitOn newline s).length := by rw [hlines]; simp
  have hget : ∀ k, k < (splitOn newline s).length →
      (scanLines s)[k]? = some (dropCR ((splitOn newline s).getD k [])) ∧
      (splitOn space (dropCR ((splitOn newline s).getD k []))).length
        ≤ (splitOn newline s).length := by
    intro k hk
    have hk' : (splitOn newline s)[k]? = some ((splitOn newline s)[k]) :=
      List.getElem?_eq_getElem hk
    refine ⟨by simp [hlines, hk'], ?_⟩
    have := h3 _ (List.getElem_mem hk)
    simpa [hk'] using this
  obtain ⟨st, e1, _, r1⟩ := forLoop_inv
    (stringMatrixOuter (splitOn newline s).length (scanLines s))
    (fun k st => st.2 = k ∧ Rep (splitOn newline s).length
      (fun r => if r < k then (splitOn newline s).length else 0)
      (fun i j => fieldValue (dropCR ((splitOn newline s).getD i [])) j) st.1)
    (scanLines s).length (makeNils (splitOn newline s).length, 0)
    ⟨rfl, Rep_makeNils _ _ _ (fun _ _ => by simp)⟩
    (fun k st hk hP => by
      obtain ⟨g, i⟩ := st
      obtain ⟨hi, hg⟩ := hP
      simp only at hi hg
      subst hi
      rw [hlen] at hk
      obtain ⟨hline, hfields⟩ := hget i hk
      obtain ⟨g1, e1, r1⟩ := hg.write_row .stringMatrix hk (splitOn newline s).length (0 : Int)
      obtain ⟨g2, e2, r2⟩ := stringMatrixInner_run
        (dropCR ((splitOn newline s).getD i [])) hk hfields _ (by simp) _ (by simp) g1 r1
      refine ⟨(g2, i + 1), ?_, rfl, r2.congr (fun r _ => ?_) (fun r c _ _ => ?_)⟩
      · simp only [stringMatrixOuter, hline, makeInts, e1, ok_bind, e2, pure_eq_ok]
      · split_ifs <;> omega
      · by_cases h : r = i
        · subst h; simp
        · simp [h])
  simp only [stringMatrix, e1, ok_bind, pure_eq_ok]
  congr 1
  refine (r1.congr (fun r hr => ?_) (fun _ _ _ _ => rfl)).eq_mkGrid
  rw [hlen]; simp [hr]

/-- On the text `"1\n"` the scanner yields one line where `strings.Split`
counts two pieces: the second row is never allocated. -/
theorem stringMatrix_newline_end :
    stringMatrix exTextNewlineEnd = .ok [[1, 0], []] ∧ stringMatrix [] = .ok [[]] := by
  decide

/-! ## `toString` -/

theorem decDigit_ne_newline (d : Nat) : decDigit d ≠ newline := by
  have h : d % 10 < 10 := Nat.mod_lt d (by decide)
  unfold decDigit
  generalize d % 10 = e at h
  interval_cases e <;> decide

theorem natDigitsAux_no_newline : ∀ (fuel n : Nat) (acc : List Char),
    (∀ c ∈ acc, c ≠ newline) → ∀ c ∈ natDigitsAux fuel n acc, c ≠ newline := by
  intro fuel
  induction fuel with
  | zero => intro n acc h c hc; exact h c hc
  | succ fuel ih =>
    intro n acc h c hc
    simp only [natDigitsAux] at hc
    split_ifs at hc
    · rcases List.mem_cons.1 hc with rfl | hc'
      · exact decDigit_ne_newline n
      · exact h c hc'
    · refine ih (n / 10) _ (fun c' hc' => ?_) c hc
      rcases List.mem_cons.1 hc' with rfl | hc''
      · exact decDigit_ne_newline _
      · exact h c' hc''

theorem natDigitsAux_ne_nil : ∀ (fuel n : Nat) (acc : List Char),
    acc ≠ [] ∨ 0 < fuel → natDigitsAux fuel n acc ≠ [] := by
  intro fuel
  induction fuel with
  | zero =>
    intro n acc h
    rcases h with h | h
    · exact h
    · exact absurd h (Nat.lt_irrefl 0)
  | succ fuel ih =>
    intro n acc _
    simp only [natDigitsAux]
    split_ifs
    · exact List.cons_ne_nil _ _
    · exact ih _ _ (Or.inl (List.cons_ne_nil _ _))

theorem decimal_ne_nil (v : Int) : decimal v ≠ [] := by
  unfold decimal
  split_ifs
  · exact List.cons_ne_nil _ _
  · exact natDigitsAux_ne_nil _ _ _ (Or.inr (Nat.succ_pos _))

theorem decimal_no_newline (v : Int) : ∀ c ∈ decimal v, c ≠ newline := by
  have h : ∀ n : Nat, ∀ c ∈ natDigits n, c ≠ newline := fun n =>
    natDigitsAux_no_newline _ _ [] (fun c hc => absurd hc (List.not_mem_nil c))
  intro c hc
  unfold decimal at hc
  split_ifs at hc
  · rcases List.mem_cons.1 hc with rfl | hc'
    · decide
    · exact h _ c hc'
  · exact h _ c hc

theorem sprintfD_length (col : Nat) (v : Int) :
    (sprintfD col v).length = max col (decimal v).length := by
  simp only [sprintfD, List.length_append, List.length_replicate]
  omega

theorem sprintfD_no_newline (col : Nat) (v : Int) : ∀ c ∈ sprintfD col v, c ≠ newline := by
  intro c hc
  rcases List.mem_append.1 hc with h | h
  · rw [(List.mem_replicate.1 h).2]; decide
  · exact decimal_no_newline v c h

theorem rowText_no_newline (col n : Nat) (mtx : matrix) (i : Nat) :
    ∀ c ∈ rowText col n mtx i, c ≠ newline := by
  intro c hc
  simp only [rowText, List.mem_flatten, List.mem_map, List.mem_range] at hc
  obtain ⟨l, ⟨j, _, rfl⟩, hcl⟩ := hc
  rcases List.mem_append.1 hcl with h | h
  · exact sprintfD_no_newline col _ c h
  · rw [List.mem_singleton.1 h]; decide

/-- A row of at least one cell ends with the space after its last cell. -/
theorem rowText_split (col n : Nat) (mtx : matrix) (i : Nat) (hn : 1 ≤ n) :
    ∃ l, rowText col n mtx i = l ++ [space] := by
  obtain ⟨k, rfl⟩ : ∃ k, n = k + 1 := ⟨n - 1, by omega⟩
  refine ⟨((List.range k).map (fun j => sprintfD col (cell mtx i j) ++ [space])).flatten ++
    sprintfD col (cell mtx i k), ?_⟩
  simp [rowText, List.range_succ]

theorem rowText_ne_nil (col n : Nat) (mtx : matrix) (i : Nat) (hn : 1 ≤ n) :
    rowText col n mtx i ≠ [] := by
  obtain ⟨l, hl⟩ := rowText_split col n mtx i hn
  rw [hl]; simp

theorem sprintfCell_accepted {col : Nat} (hcol : col < 10000010) (v : Int) :
    sprintfCell col v = sprintfD col v ++ [space] := by
  have h : ¬ (1000000 < col / 10) := by omega
  simp [sprintfCell, widthRejected, h]

/-- The width 10000010 is rejected: the cell is not printed in a field. -/
theorem toString_width_rejected :
    MtxMult.toString 10000010 [[5]] =
      .ok (noVerbText ++ (extraIntText ++ [Char.ofNat 53, closeParen])) := by
  decide

theorem toStringInner_run {n : Nat} {mtx : matrix} (hM : isSquare n mtx) {col : Nat}
    (hcol : col < 10000010) {i : Nat} (hi : i < n) (s0 : List Char) :
    forLoop (toStringInner col mtx i) n s0 = .ok (s0 ++ rowText col n mtx i) := by
  have hM' := (isSquare_iff_Rep n mtx).1 hM
  obtain ⟨s, e1, h1⟩ := forLoop_inv (toStringInner col mtx i)
    (fun j s => s = s0 ++
      ((List.range j).map (fun j => sprintfD col (cell mtx i j) ++ [space])).flatten)
    n s0 (by simp)
    (fun j s hj hs => by
      have e1 := hM'.read .toString hi hj
      refine ⟨s ++ (sprintfD col (cell mtx i j) ++ [space]), ?_, ?_⟩
      · simp only [toStringInner, e1, ok_bind, pure_eq_ok, sprintfCell_accepted hcol]
      · dsimp only at hs ⊢
        rw [hs, List.range_succ]; simp)
  rw [e1, h1]; rfl

theorem toStringOuter_run {n : Nat} {mtx : matrix} (hM : isSquare n mtx) {col : Nat}
    (hcol : col < 10000010) (hn : 1 ≤ n) :
    forLoop (toStringOuter col mtx) n [] =
      .ok ((List.range n).map (fun i => rowText col n mtx i ++ [newline])).flatten := by
  have hM' := (isSquare_iff_Rep n mtx).1 hM
  obtain ⟨row0, h0, hlen0, _⟩ := hM'.2 0 hn
  have hcols : toStringCols mtx = .ok n := by simp only [toStringCols, h0, hlen0]
  obtain ⟨s, e1, h1⟩ := forLoop_inv (toStringOuter col mtx)
    (fun i s => s = ((List.range i).map (fun i => rowText col n mtx i ++ [newline])).flatten)
    n [] (by simp)
    (fun i s hi hs => by
      refine ⟨s ++ rowText col n mtx i ++ [newline], ?_, ?_⟩
      · simp only [toStringOuter, hcols, ok_bind, toStringInner_run hM hcol hi, pure_eq_ok]
      · dsimp only at hs ⊢
        rw [hs, List.range_succ]; simp)
  rw [e1, h1]

theorem intercalate_concat (sep : List Char) (L : List (List Char)) (x : List Char) :
    List.intercalate sep (L ++ [x]) = (L.map (fun l => l ++ sep)).flatten ++ x := by
  induction L with
  | nil => simp [List.intercalate]
  | cons y L ih =>
    cases L with
    | nil => simp [List.intercalate]
    | cons z zs =>
      have h : List.intercalate sep (y :: (z :: zs ++ [x])) =
          y ++ sep ++ List.intercalate sep (z :: zs ++ [x]) := by
        simp [List.intercalate]
      rw [List.cons_append, h, ih]
      simp

/-- The text of the outer loop of `toString` is the grid text followed by
one newline. -/
theorem gridText_newline (col n : Nat) (mtx : matrix) (hn : 1 ≤ n) :
    ((List.range n).map (fun i => rowText col n mtx i ++ [newline])).flatten =
      gridText col n mtx ++ [newline] := by
  obtain ⟨k, hk⟩ : ∃ k, n = k + 1 := ⟨n - 1, by omega⟩
  rw [gridText]
  conv_lhs => rw [hk, List.range_succ]
  conv_rhs => rw [hk, List.range_succ, List.map_append, List.map_singleton, intercalate_concat]
  simp [← hk, List.map_map, Function.comp_def]

/-- The grid text begins with its first row and ends with its last row. -/
theorem gridText_ends (col n : Nat) (mtx : matrix) (hn : 1 ≤ n) :
    (∃ Y, gridText col n mtx = rowText col n mtx 0 ++ Y) ∧
    (∃ Y, gridText col n mtx = Y ++ rowText col n mtx (n - 1)) := by
  obtain ⟨k, hk⟩ : ∃ k, n = k + 1 := ⟨n - 1, by omega⟩
  have hform : gridText col n mtx =
      (((List.range k).map (rowText col n mtx)).map (fun l => l ++ [newline])).flatten ++
        rowText col n mtx k := by
    rw [gridText]
    conv_lhs => rw [hk, List.range_succ, List.map_append, List.map_singleton, intercalate_concat]
    rw [← hk]
  constructor
  · cases k with
    | zero => exact ⟨[], by rw [hform]; simp⟩
    | succ k' =>
      refine ⟨[newline] ++ ((((List.range k').map Nat.succ).map (rowText col n mtx)).map
        (fun l => l ++ [newline])).flatten ++ rowText col n mtx (k' + 1), ?_⟩
      rw [hform, List.range_succ_eq_map]
      simp only [List.map_cons, List.flatten_cons, List.append_assoc]
  · have hk1 : n - 1 = k := by omega
    exact ⟨(((List.range k).map (rowText col n mtx)).map (fun l => l ++ [newline])).flatten,
      by rw [hform, hk1]⟩

theorem trimNewlines_append_newline (X R0 Y R1 Z : List Char) (h0 : X = R0 ++ Y)
    (h1 : X = Z ++ R1) (hR0 : R0 ≠ []) (hR1 : R1 ≠ []) (n0 : ∀ c ∈ R0, c ≠ newline)
    (n1 : ∀ c ∈ R1, c ≠ newline) : trimNewlines (X ++ [newline]) = X := by
  obtain ⟨a, l0, rfl⟩ := List.exists_cons_of_ne_nil hR0
  have ha : a ≠ newline := n0 a (List.mem_cons_self a l0)
  have hz : R1.getLast hR1 ≠ newline := n1 _ (List.getLast_mem hR1)
  have hR1' : R1 = R1.dropLast ++ [R1.getLast hR1] := (List.dropLast_append_getLast hR1).symm
  have hf : (X ++ [newline]).dropWhile (fun c => c == newline) = X ++ [newline] := by
    have hb0 : (a == newline) = false := by simpa using ha
    rw [h0]
    simp [List.dropWhile, hb0]
  have hrev : (X ++ [newline]).reverse = newline :: R1.getLast hR1 :: (Z ++ R1.dropLast).reverse := by
    rw [h1]
    conv_lhs => rw [hR1']
    simp
  unfold trimNewlines
  rw [hf, hrev]
  simp only [List.dropWhile, beq_self_eq_true]
  have hb : (R1.getLast hR1 == newline) = false := by simpa using hz
  simp only [hb]
  rw [List.reverse_cons, List.reverse_reverse, List.append_assoc, ← hR1', ← h1]

/-- The rendering of a non-empty square matrix, for a width that `fmt`
accepts, is its grid text. -/
theorem toString_eq {n : Nat} {mtx : matrix} (hM : isSquare n mtx) {col : Nat}
    (hcol : col < 10000010) (hn : 1 ≤ n) :
    MtxMult.toString col mtx = .ok (gridText col n mtx) := by
  obtain ⟨⟨Y0, h0⟩, ⟨Y1, h1⟩⟩ := gridText_ends col n mtx hn
  simp only [MtxMult.toString, hM.1, toStringOuter_run hM hcol hn, ok_bind, pure_eq_ok,
    gridText_newline col n mtx hn]
  congr 1
  exact trimNewlines_append_newline _ _ _ _ _ h0 h1 (rowText_ne_nil col n mtx 0 hn)
    (rowText_ne_nil col n mtx (n - 1) hn) (rowText_no_newline col n mtx 0)
    (rowText_no_newline col n mtx (n - 1))

/-! ## The claims -/

/-- C1: for every `n ≥ 1`, every pair of `n` by `n` matrices `A`, `B` and every
`s ≥ 1` dividing `n`, `mtMultiply(A, B, s)` (the tasks of a block run one at a
time) and `stMultiply(A, B)` both return, and return the same `n` by `n`
matrix; this holds for every word modulus `m`. -/
theorem C1_mtMultiply_matches_stMultiply (m n s : Nat) (A B : matrix) (hn : 1 ≤ n)
    (hA : isSquare n A) (hB : isSquare n B) (hs : 1 ≤ s) (hdiv : s ∣ n) :
    ∃ C, isSquare n C ∧ stMultiply m A B = .ok C ∧ mtMultiply m A B s = .ok C :=
  ⟨_, isSquare_mkGrid n _, stMultiply_eq hA hB m, mtMultiply_eq hA hB m hn hs hdiv⟩

theorem C1_witness :
    1 ≤ 4 ∧ isSquare 4 exA ∧ isSquare 4 exB ∧ 1 ≤ 2 ∧ 2 ∣ 4 ∧
    ∃ C, isSquare 4 C ∧ stMultiply (2 ^ 64) exA exB = .ok C ∧
      mtMultiply (2 ^ 64) exA exB 2 = .ok C :=
  ⟨by decide, by decide, by decide, by decide, by decide,
    C1_mtMultiply_matches_stMultiply (2 ^ 64) 4 2 exA exB (by decide) (by decide) (by decide)
      (by decide) (by decide)⟩

/-- C2: round trip over tiling. For every `n ≥ 1`, every `n` by `n` matrix `M`,
every `s ≥ 1` dividing `n` and every `n` by `n` destination `D`, `M.getSlices(s)`
returns a grid `G`, and `D.mergeSlices(G)` returns with the destination equal
to `M`. -/
theorem C2_merge_getSlices_roundtrip (n s : Nat) (M D : matrix) (hn : 1 ≤ n)
    (hM : isSquare n M) (hD : isSquare n D) (hs : 1 ≤ s) (hdiv : s ∣ n) :
    ∃ G, getSlices M s = .ok G ∧ mergeSlices D G = .ok M := by
  refine ⟨_, getSlices_eq hM hs, ?_⟩
  rw [mergeSlices_eq hD (isGrid_mkGrid _ _ _ (fun i j _ _ => isSquare_tileOf s M i j)) hn hs hdiv]
  congr 1
  rw [hM.eq_mkGrid_cells]
  refine mkGrid_congr n _ _ (fun r c hr hc => ?_)
  rw [cell_mkGrid _ _ (div_lt_blocks hs hdiv hr) (div_lt_blocks hs hdiv hc), tileOf,
    cell_mkGrid _ _ (Nat.mod_lt r (by omega)) (Nat.mod_lt c (by omega)),
    Nat.div_add_mod', Nat.div_add_mod', cell_mkGrid _ _ hr hc]

theorem C2_witness :
    1 ≤ 4 ∧ isSquare 4 exA ∧ isSquare 4 exB ∧ 1 ≤ 2 ∧ 2 ∣ 4 ∧
    ∃ G, getSlices exA 2 = .ok G ∧ mergeSlices exB G = .ok exA :=
  ⟨by decide, by decide, by decide, by decide, by decide,
    C2_merge_getSlices_roundtrip 4 2 exA exB (by decide) (by decide) (by decide) (by decide)
      (by decide)⟩

/-- C3: for every `n` by `n` matrices `A` and `B`, `stMultiply(A, B)` returns an
`n` by `n` matrix `C` whose cell `(i, j)` is the sum over `k < n` of
`A[i][k] * B[k][j]` taken in the machine integers of modulus `m`; whenever the
sum is representable (always for `m = 0`, the unbounded integers) the cell is
the sum itself. -/
theorem C3_stMultiply_cells (m n : Nat) (A B : matrix) (hA : isSquare n A)
    (hB : isSquare n B) :
    ∃ C, stMultiply m A B = .ok C ∧ isSquare n C ∧ ∀ i j, i < n → j < n →
      cell C i j = wrap m (∑ k ∈ Finset.range n, cell A i k * cell B k j) ∧
      (inRange m (∑ k ∈ Finset.range n, cell A i k * cell B k j) →
        cell C i j = ∑ k ∈ Finset.range n, cell A i k * cell B k j) := by
  refine ⟨_, stMultiply_eq hA hB m, isSquare_mkGrid n _, fun i j hi hj => ?_⟩
  rw [cell_mkGrid n _ hi hj]
  exact ⟨rfl, fun h => wrap_of_inRange h⟩

theorem C3_witness :
    isSquare 4 exA ∧ isSquare 4 exB ∧
    ∃ C, stMultiply (2 ^ 64) exA exB = .ok C ∧ isSquare 4 C ∧ ∀ i j, i < 4 → j < 4 →
      cell C i j = wrap (2 ^ 64) (∑ k ∈ Finset.range 4, cell exA i k * cell exB k j) ∧
      (inRange (2 ^ 64) (∑ k ∈ Finset.range 4, cell exA i k * cell exB k j) →
        cell C i j = ∑ k ∈ Finset.range 4, cell exA i k * cell exB k j) :=
  ⟨by decide, by decide, C3_stMultiply_cells (2 ^ 64) 4 exA exB (by decide) (by decide)⟩

/-- C4: for every `n` by `n` matrix `M` and every `s ≥ 1` dividing `n`,
`M.getSlices(s)` returns a grid of `n/s` rows of `n/s` tiles, every tile `s` by
`s`; the tile at block `(i, j)` is what `M.getSlice(i, j, s)` returns, and its
cell `(r, c)` is `M[i*s + r][j*s + c]`. -/
theorem C4_getSlices_tiles (n s : Nat) (M : matrix) (hM : isSquare n M) (hs : 1 ≤ s)
    (hdiv : s ∣ n) :
    ∃ G, getSlices M s = .ok G ∧ isGrid (n / s) s G ∧
      ∀ i j, i < n / s → j < n / s →
        getSlice M i j s = .ok (cell G i j) ∧ isSquare s (cell G i j) ∧
        ∀ r c, r < s → c < s → cell (cell G i j) r c = cell M (i * s + r) (j * s + c) := by
  have hbs : n / s * s = n := Nat.div_mul_cancel hdiv
  refine ⟨_, getSlices_eq hM hs, isGrid_mkGrid _ _ _ (fun i j _ _ => isSquare_tileOf s M i j),
    fun i j hi hj => ?_⟩
  have h1 : (i + 1) * s ≤ n / s * s := Nat.mul_le_mul_right s hi
  have h2 : (j + 1) * s ≤ n / s * s := Nat.mul_le_mul_right s hj
  rw [cell_mkGrid _ _ hi hj]
  refine ⟨getSlice_eq hM (by omega) (by omega), isSquare_tileOf s M i j, fun r c hr hc => ?_⟩
  rw [tileOf, cell_mkGrid _ _ hr hc]

theorem C4_witness :
    isSquare 4 exA ∧ 1 ≤ 2 ∧ 2 ∣ 4 ∧
    ∃ G, getSlices exA 2 = .ok G ∧ isGrid (4 / 2) 2 G ∧
      ∀ i j, i < 4 / 2 → j < 4 / 2 →
        getSlice exA i j 2 = .ok (cell G i j) ∧ isSquare 2 (cell G i j) ∧
        ∀ r c, r < 2 → c < 2 → cell (cell G i j) r c = cell exA (i * 2 + r) (j * 2 + c) :=
  ⟨by decide, by decide, by decide,
    C4_getSlices_tiles 4 2 exA (by decide) (by decide) (by decide)⟩

/-- C5: for every `n` by `n` destination `D` and every `n/s` by `n/s` grid `G`
of `s` by `s` tiles with `s ≥ 1` dividing `n`: (1) whenever `D.mergeSlices(G)`
returns, the destination is `n` by `n` and every cell `(row, col)` holds
`G[row / s][col / s][row % s][col % s]`; (2) for `n ≥ 1` the call returns;
(3) after `i` iterations of the outer loop the counter `row` is `i % s`;
(4) after `j` iterations of the inner loop of row `i` the counter `col` is
`j % s`. -/
theorem C5_mergeSlices_cells (n s : Nat) (D : matrix) (G : List (List matrix))
    (hD : isSquare n D) (hG : isGrid (n / s) s G) (hs : 1 ≤ s) (hdiv : s ∣ n) :
    (∀ D1, mergeSlices D G = .ok D1 → isSquare n D1 ∧
      ∀ row col, row < n → col < n →
        cell D1 row col = cell (cell G (row / s) (col / s)) (row % s) (col % s)) ∧
    (1 ≤ n → ∃ D1, mergeSlices D G = .ok D1) ∧
    (∀ i, i ≤ n → ∃ st, forLoop (mergeSlicesOuter G n s) i (D, 0) = .ok st ∧ st.2 = i % s) ∧
    (∀ i j, i < n → j ≤ n → ∀ g, isSquare n g →
      ∃ st, forLoop (mergeSlicesInner G s i (i % s)) j (g, 0) = .ok st ∧ st.2 = j % s) := by
  refine ⟨fun D1 h => ?_, fun hn => ⟨_, mergeSlices_eq hD hG hn hs hdiv⟩, fun i hi => ?_,
    fun i j hi hj g hg => ?_⟩
  · rcases Nat.eq_zero_or_pos n with h0 | hn
    · subst h0
      have hG0 : G = [] := List.length_eq_zero.1 (by simpa using hG.1)
      subst hG0
      simp [mergeSlices, readCell] at h
    · rw [mergeSlices_eq hD hG hn hs hdiv] at h
      cases h
      exact ⟨isSquare_mkGrid n _, fun row col hr hc => cell_mkGrid n _ hr hc⟩
  · obtain ⟨st, h1, h2, _⟩ := mergeSlicesOuter_run hD hG hs hdiv i hi
    exact ⟨st, h1, h2⟩
  · obtain ⟨st, h1, h2, _⟩ :=
      mergeSlicesInner_run hG hs hdiv hi _ g ((isSquare_iff_Rep n g).1 hg) j hj
    exact ⟨st, h1, h2⟩

theorem C5_witness :
    isSquare 4 exA ∧ isGrid (4 / 2) 2 exGrid ∧ 1 ≤ 2 ∧ 2 ∣ 4 ∧
    ((∀ D1, mergeSlices exA exGrid = .ok D1 → isSquare 4 D1 ∧
      ∀ row col, row < 4 → col < 4 →
        cell D1 row col = cell (cell exGrid (row / 2) (col / 2)) (row % 2) (col % 2)) ∧
    (1 ≤ 4 → ∃ D1, mergeSlices exA exGrid = .ok D1) ∧
    (∀ i, i ≤ 4 → ∃ st, forLoop (mergeSlicesOuter exGrid 4 2) i (exA, 0) = .ok st ∧
      st.2 = i % 2) ∧
    (∀ i j, i < 4 → j ≤ 4 → ∀ g, isSquare 4 g →
      ∃ st, forLoop (mergeSlicesInner exGrid 2 i (i % 2)) j (g, 0) = .ok st ∧ st.2 = j % 2)) :=
  ⟨by decide, by decide, by decide, by decide,
    C5_mergeSlices_cells 4 2 exA exGrid (by decide) (by decide) (by decide) (by decide)⟩

/-- C6: for every `s` by `s` matrices `C`, `A` and `B`, one complete run of
`C.addMultiply(A, B)` returns, leaves `A` and `B` as they were, and leaves the
`s` by `s` receiver with `C[i][j] + sum over k < s of A[i][k] * B[k][j]` in
cell `(i, j)`, the sum taken in the machine integers of modulus `m` (the sum
itself when it is representable); this is the machine sum of `C[i][j]` and
cell `(i, j)` of `stMultiply(A, B)`. -/
theorem C6_addMultiply_cells (m s : Nat) (C A B : matrix) (hC : isSquare s C)
    (hA : isSquare s A) (hB : isSquare s B) :
    ∃ ops P, addMultiply m { mtxC := C, mtxA := A, mtxB := B } = .ok ops ∧
      ops.mtxA = A ∧ ops.mtxB = B ∧ isSquare s ops.mtxC ∧ stMultiply m A B = .ok P ∧
      ∀ i j, i < s → j < s →
        cell ops.mtxC i j =
          wrap m (cell C i j + ∑ k ∈ Finset.range s, cell A i k * cell B k j) ∧
        (inRange m (cell C i j + ∑ k ∈ Finset.range s, cell A i k * cell B k j) →
          cell ops.mtxC i j = cell C i j + ∑ k ∈ Finset.range s, cell A i k * cell B k j) ∧
        cell ops.mtxC i j = addW m (cell C i j) (cell P i j) := by
  refine ⟨_, _, addMultiply_eq hC hA hB m, rfl, rfl, isSquare_mkGrid s _,
    stMultiply_eq hA hB m, fun i j hi hj => ?_⟩
  have hs : 0 < s := by omega
  have key : cell (mkGrid s (fun i j =>
      dotAcc m (cell C i j) (fun k => cell A i k * cell B k j) s)) i j =
      wrap m (cell C i j + ∑ k ∈ Finset.range s, cell A i k * cell B k j) := by
    rw [cell_mkGrid s _ hi hj, dotAcc_pos m _ _ hs]
  refine ⟨key, fun h => ?_, ?_⟩
  · rw [key, wrap_of_inRange h]
  · rw [key, cell_mkGrid s _ hi hj, addW, wrap_add_wrap]

theorem C6_witness :
    isSquare 2 exT ∧ isSquare 2 exU ∧ isSquare 2 exT ∧
    ∃ ops P, addMultiply (2 ^ 64) { mtxC := exT, mtxA := exU, mtxB := exT } = .ok ops ∧
      ops.mtxA = exU ∧ ops.mtxB = exT ∧ isSquare 2 ops.mtxC ∧
      stMultiply (2 ^ 64) exU exT = .ok P ∧
      ∀ i j, i < 2 → j < 2 →
        cell ops.mtxC i j =
          wrap (2 ^ 64) (cell exT i j + ∑ k ∈ Finset.range 2, cell exU i k * cell exT k j) ∧
        (inRange (2 ^ 64) (cell exT i j + ∑ k ∈ Finset.range 2, cell exU i k * cell exT k j) →
          cell ops.mtxC i j =
            cell exT i j + ∑ k ∈ Finset.range 2, cell exU i k * cell exT k j) ∧
        cell ops.mtxC i j = addW (2 ^ 64) (cell exT i j) (cell P i j) :=
  ⟨by decide, by decide, by decide,
    C6_addMultiply_cells (2 ^ 64) 2 exT exU exT (by decide) (by decide) (by decide)⟩

theorem sum_allOnes (n : Nat) {i j : Nat} (hi : i < n) (hj : j < n) :
    (∑ k ∈ Finset.range n,
      cell (mkGrid n (fun _ _ => (1 : Int))) i k * cell (mkGrid n (fun _ _ => (1 : Int))) k j)
      = (n : Int) := by
  have h : ∀ k ∈ Finset.range n,
      cell (mkGrid n (fun _ _ => (1 : Int))) i k * cell (mkGrid n (fun _ _ => (1 : Int))) k j
        = 1 := by
    intro k hk
    have hk' : k < n := Finset.mem_range.1 hk
    rw [cell_mkGrid n _ hi hk', cell_mkGrid n _ hk' hj, mul_one]
  rw [Finset.sum_congr rfl h]
  simp

/-- C7: for every `n` that is a machine integer (`n ≥ 1` included),
`allOnesMatrix(n)` returns a matrix `A`, and `stMultiply(A, A)` returns an `n`
by `n` matrix in which every cell equals `n`. -/
theorem C7_stMultiply_allOnes (m n : Nat) (hr : inRange m (n : Int)) :
    ∃ A C, allOnesMatrix n = .ok A ∧ stMultiply m A A = .ok C ∧ isSquare n C ∧
      ∀ i j, i < n → j < n → cell C i j = (n : Int) := by
  have hA : isSquare n (mkGrid n (fun _ _ => (1 : Int))) := isSquare_mkGrid n _
  refine ⟨_, _, allOnesMatrix_eq n, stMultiply_eq hA hA m, isSquare_mkGrid n _,
    fun i j hi hj => ?_⟩
  rw [cell_mkGrid n _ hi hj, sum_allOnes n hi hj, wrap_of_inRange hr]

theorem C7_witness :
    inRange (2 ^ 64) ((4 : Nat) : Int) ∧
    ∃ A C, allOnesMatrix 4 = .ok A ∧ stMultiply (2 ^ 64) A A = .ok C ∧ isSquare 4 C ∧
      ∀ i j, i < 4 → j < 4 → cell C i j = ((4 : Nat) : Int) :=
  ⟨by decide, C7_stMultiply_allOnes (2 ^ 64) 4 (by decide)⟩

/-- C8: for every `n ≥ 1` (a machine integer) and every `s ≥ 1` dividing `n`,
`allOnesMatrix(n)` returns a matrix `A`, and `mtMultiply(A, A, s)` (the tasks
of a block run one at a time) returns an `n` by `n` matrix in which every cell
equals `n`. -/
theorem C8_mtMultiply_allOnes (m n s : Nat) (hn : 1 ≤ n) (hr : inRange m (n : Int))
    (hs : 1 ≤ s) (hdiv : s ∣ n) :
    ∃ A C, allOnesMatrix n = .ok A ∧ mtMultiply m A A s = .ok C ∧ isSquare n C ∧
      ∀ i j, i < n → j < n → cell C i j = (n : Int) := by
  have hA : isSquare n (mkGrid n (fun _ _ => (1 : Int))) := isSquare_mkGrid n _
  refine ⟨_, _, allOnesMatrix_eq n, mtMultiply_eq hA hA m hn hs hdiv, isSquare_mkGrid n _,
    fun i j hi hj => ?_⟩
  rw [cell_mkGrid n _ hi hj, sum_allOnes n hi hj, wrap_of_inRange hr]

theorem C8_witness :
    1 ≤ 4 ∧ inRange (2 ^ 64) ((4 : Nat) : Int) ∧ 1 ≤ 2 ∧ 2 ∣ 4 ∧
    ∃ A C, allOnesMatrix 4 = .ok A ∧ mtMultiply (2 ^ 64) A A 2 = .ok C ∧ isSquare 4 C ∧
      ∀ i j, i < 4 → j < 4 → cell C i j = ((4 : Nat) : Int) :=
  ⟨by decide, by decide, by decide, by decide,
    C8_mtMultiply_allOnes (2 ^ 64) 4 2 (by decide) (by decide) (by decide) (by decide)⟩

/-- C9: tile-size independence at the boundary. For every pair of 4 by 4
matrices `A` and `B`, `mtMultiply(A, B, 4)`, `mtMultiply(A, B, 2)` and
`mtMultiply(A, B, 1)` (the tasks of a block run one at a time) return the same
matrix. -/
theorem C9_tile_size_independence (m : Nat) (A B : matrix) (hA : isSquare 4 A)
    (hB : isSquare 4 B) :
    ∃ C, mtMultiply m A B 4 = .ok C ∧ mtMultiply m A B 2 = .ok C ∧
      mtMultiply m A B 1 = .ok C :=
  ⟨_, mtMultiply_eq hA hB m (by decide) (by decide) (by decide),
    mtMultiply_eq hA hB m (by decide) (by decide) (by decide),
    mtMultiply_eq hA hB m (by decide) (by decide) (by decide)⟩

theorem C9_witness :
    isSquare 4 exA ∧ isSquare 4 exB ∧
    ∃ C, mtMultiply (2 ^ 64) exA exB 4 = .ok C ∧ mtMultiply (2 ^ 64) exA exB 2 = .ok C ∧
      mtMultiply (2 ^ 64) exA exB 1 = .ok C :=
  ⟨by decide, by decide, C9_tile_size_independence (2 ^ 64) exA exB (by decide) (by decide)⟩

/-- C10: under the preconditions `n ≥ 1`, `A` and `B` both `n` by `n`, `s ≥ 1`
and `s` dividing `n`, no operation of the blocked multiplication faults:
`mtMultiply` returns an `n` by `n` matrix; the divisions `n / s` have a non-zero
divisor; `getSlices` returns on `A` and on `B`; `getSlice` returns at every
block coordinate; `addMultiply` returns on every triple of `s` by `s` tiles;
`mergeSlices` returns on every `n` by `n` destination and `n/s` by `n/s` grid of
`s` by `s` tiles. -/
theorem C10_no_fault (m n s : Nat) (A B : matrix) (hn : 1 ≤ n) (hA : isSquare n A)
    (hB : isSquare n B) (hs : 1 ≤ s) (hdiv : s ∣ n) :
    (∃ C, mtMultiply m A B s = .ok C ∧ isSquare n C) ∧
    goDiv .getSlices n s = .ok (n / s) ∧ goDiv .mtMultiply n s = .ok (n / s) ∧
    (∃ GA GB, getSlices A s = .ok GA ∧ getSlices B s = .ok GB ∧
      isGrid (n / s) s GA ∧ isGrid (n / s) s GB) ∧
    (∀ i j, i < n / s → j < n / s →
      ∃ tA tB, getSlice A i j s = .ok tA ∧ getSlice B i j s = .ok tB) ∧
    (∀ tC tA tB, isSquare s tC → isSquare s tA → isSquare s tB →
      ∃ ops, addMultiply m { mtxC := tC, mtxA := tA, mtxB := tB } = .ok ops) ∧
    (∀ D G, isSquare n D → isGrid (n / s) s G → ∃ D1, mergeSlices D G = .ok D1) := by
  have hs0 : s ≠ 0 := by omega
  have hbs : n / s * s = n := Nat.div_mul_cancel hdiv
  refine ⟨⟨_, mtMultiply_eq hA hB m hn hs hdiv, isSquare_mkGrid n _⟩, by simp [goDiv, hs0],
    by simp [goDiv, hs0],
    ⟨_, _, getSlices_eq hA hs, getSlices_eq hB hs,
      isGrid_mkGrid _ _ _ (fun i j _ _ => isSquare_tileOf s A i j),
      isGrid_mkGrid _ _ _ (fun i j _ _ => isSquare_tileOf s B i j)⟩,
    fun i j hi hj => ?_, fun tC tA tB hC hA1 hB1 => ⟨_, addMultiply_eq hC hA1 hB1 m⟩,
    fun D G hD hG => ⟨_, mergeSlices_eq hD hG hn hs hdiv⟩⟩
  have h1 : (i + 1) * s ≤ n / s * s := Nat.mul_le_mul_right s hi
  have h2 : (j + 1) * s ≤ n / s * s := Nat.mul_le_mul_right s hj
  exact ⟨_, _, getSlice_eq hA (by omega) (by omega), getSlice_eq hB (by omega) (by omega)⟩

theorem C10_witness :
    1 ≤ 4 ∧ isSquare 4 exA ∧ isSquare 4 exB ∧ 1 ≤ 2 ∧ 2 ∣ 4 ∧
    ((∃ C, mtMultiply (2 ^ 64) exA exB 2 = .ok C ∧ isSquare 4 C) ∧
    goDiv .getSlices 4 2 = .ok (4 / 2) ∧ goDiv .mtMultiply 4 2 = .ok (4 / 2) ∧
    (∃ GA GB, getSlices exA 2 = .ok GA ∧ getSlices exB 2 = .ok GB ∧
      isGrid (4 / 2) 2 GA ∧ isGrid (4 / 2) 2 GB) ∧
    (∀ i j, i < 4 / 2 → j < 4 / 2 →
      ∃ tA tB, getSlice exA i j 2 = .ok tA ∧ getSlice exB i j 2 = .ok tB) ∧
    (∀ tC tA tB, isSquare 2 tC → isSquare 2 tA → isSquare 2 tB →
      ∃ ops, addMultiply (2 ^ 64) { mtxC := tC, mtxA := tA, mtxB := tB } = .ok ops) ∧
    (∀ D G, isSquare 4 D → isGrid (4 / 2) 2 G → ∃ D1, mergeSlices D G = .ok D1)) :=
  ⟨by decide, by decide, by decide, by decide, by decide,
    C10_no_fault (2 ^ 64) 4 2 exA exB (by decide) (by decide) (by decide) (by decide)
      (by decide)⟩

/-- C17, counterexample: the empty matrices and `s = 1` meet every condition
of the claim (`0` by `0` inputs, `s ≥ 1`, `s` divides `0`), and with 64-bit
wraparound `stMultiply` returns the empty matrix while `mtMultiply` faults in
`mergeSlices`: the two kernels do not agree. -/
theorem C17_counterexample :
    isSquare 0 [] ∧ 1 ≤ 1 ∧ 1 ∣ 0 ∧
    ¬ ∃ C, stMultiply (2 ^ 64) [] [] = .ok C ∧ mtMultiply (2 ^ 64) [] [] 1 = .ok C := by
  refine ⟨by decide, by decide, by decide, ?_⟩
  rintro ⟨C, _, h⟩
  have hf : mtMultiply (2 ^ 64) [] [] 1 = .error (.indexOutOfRange .mergeSlices) := by decide
  rw [hf] at h
  cases h

/-- C17, amended: the equality of the two kernels survives overflow. With
64-bit two's-complement wraparound (word modulus `2 ^ 64`), for every `n ≥ 1`,
every `n` by `n` matrices `A`, `B` and every `s ≥ 1` dividing `n`, when the
tasks of each block are run to completion one at a time, `stMultiply(A, B)` and
`mtMultiply(A, B, s)` return the same matrix; every cell is the wrapped sum of
the `n` products and lies in the 64-bit range. -/
theorem C17_agreement_under_overflow (n s : Nat) (A B : matrix) (hn : 1 ≤ n)
    (hA : isSquare n A) (hB : isSquare n B) (hs : 1 ≤ s) (hdiv : s ∣ n) :
    ∃ C, stMultiply (2 ^ 64) A B = .ok C ∧ mtMultiply (2 ^ 64) A B s = .ok C ∧
      ∀ i j, i < n → j < n →
        cell C i j = wrap (2 ^ 64) (∑ k ∈ Finset.range n, cell A i k * cell B k j) ∧
        inRange (2 ^ 64) (cell C i j) := by
  refine ⟨_, stMultiply_eq hA hB _, mtMultiply_eq hA hB _ hn hs hdiv, fun i j hi hj => ?_⟩
  rw [cell_mkGrid n _ hi hj]
  exact ⟨rfl, wrap_inRange (by decide) _⟩

theorem C17_witness :
    1 ≤ 4 ∧ isSquare 4 exA ∧ isSquare 4 exB ∧ 1 ≤ 2 ∧ 2 ∣ 4 ∧
    ∃ C, stMultiply (2 ^ 64) exA exB = .ok C ∧ mtMultiply (2 ^ 64) exA exB 2 = .ok C ∧
      ∀ i j, i < 4 → j < 4 →
        cell C i j = wrap (2 ^ 64) (∑ k ∈ Finset.range 4, cell exA i k * cell exB k j) ∧
        inRange (2 ^ 64) (cell C i j) :=
  ⟨by decide, by decide, by decide, by decide, by decide,
    C17_agreement_under_overflow 4 2 exA exB (by decide) (by decide) (by decide) (by decide)
      (by decide)⟩

/-- C18: order independence of the tasks of a block. For every output block
`(i, j)` whose tile is zero, and every permutation `ks` of the indices
`0, ..., n/s - 1`, running the calls
`slicesC[i][j].addMultiply(slicesA[i][k], slicesB[k][j])` one after another in
the order `ks` returns the same grid as running them in increasing `k`; the
output tile is the sum over `k` of the tile products, cell by cell in machine
arithmetic. -/
theorem C18_block_order_independence (m n s : Nat) (A B : matrix) (hA : isSquare n A)
    (hB : isSquare n B) (hs : 1 ≤ s) (i j : Nat) (hi : i < n / s) (hj : j < n / s)
    (ks : List Nat) (hperm : ks.Perm (List.range (n / s))) (slicesC : List (List matrix))
    (hC : isGrid (n / s) s slicesC) (hzero : cell slicesC i j = mkGrid s (fun _ _ => 0)) :
    ∃ slicesA slicesB out, getSlices A s = .ok slicesA ∧ getSlices B s = .ok slicesB ∧
      runInOrder (mtTask m slicesA slicesB i j) ks slicesC = .ok out ∧
      mtBlock m slicesA slicesB (n / s) i j slicesC = .ok out ∧
      ∀ r c, r < s → c < s → cell (cell out i j) r c =
        wrap m (∑ kb ∈ Finset.range (n / s), ∑ k ∈ Finset.range s,
          cell (cell slicesA i kb) r k * cell (cell slicesB kb j) k c) := by
  obtain ⟨hCrep, _⟩ := hC.rep
  have hz : cell slicesC i j = partialTile m s A B 0 i j := by rw [hzero, partialTile_zero]
  have hz' : cell slicesC i j = mkGrid s (fun r c => wrap m ((fun _ _ => (0 : Int)) r c)) := by
    rw [hzero]; exact mkGrid_congr s _ _ (fun _ _ _ _ => (wrap_zero m).symm)
  obtain ⟨g1, e1, r1⟩ := runInOrder_tasks m A B hs hi hj ks
    (fun k hk => List.mem_range.1 (hperm.subset hk)) _ _ hz' slicesC hCrep
  obtain ⟨g2, e2, r2⟩ := mtBlock_run m A B hs hi hj _ hz slicesC hCrep
  have hsum : ∀ r c, (ks.map (blockSum s A B i j r c)).sum =
      ∑ k ∈ Finset.range (n / s * s), cell A (i * s + r) k * cell B k (j * s + c) := by
    intro r c
    rw [(hperm.map _).sum_eq, sum_map_range, sum_blockSum]
  have htile : mkGrid s (fun r c => wrap m (0 + (ks.map (blockSum s A B i j r c)).sum)) =
      partialTile m s A B (n / s) i j := by
    rw [partialTile]
    exact mkGrid_congr s _ _ (fun r c _ _ => by rw [zero_add, hsum])
  have r1' : Rep (n / s) (fun _ => n / s) (fun r c => if r = i ∧ c = j
      then partialTile m s A B (n / s) i j else cell slicesC r c) g1 :=
    r1.congr (fun _ _ => rfl) (fun r c _ _ => by
      by_cases h : r = i ∧ c = j
      · simp only [h, and_self, if_true]; exact htile
      · simp [h])
  have hg : g1 = g2 := r1'.unique r2
  subst hg
  refine ⟨_, _, g1, getSlices_eq hA hs, getSlices_eq hB hs, e1, e2, fun r c hr hc => ?_⟩
  rw [r2.cell_eq hi hj]
  simp only [and_self, if_true]
  rw [partialTile, cell_mkGrid s _ hr hc, ← sum_blockSum]
  congr 1
  refine Finset.sum_congr rfl (fun kb hkb => ?_)
  have hkb' : kb < n / s := Finset.mem_range.1 hkb
  rw [blockSum]
  refine Finset.sum_congr rfl (fun k hk => ?_)
  have hk' : k < s := Finset.mem_range.1 hk
  rw [cell_mkGrid _ _ hi hkb', cell_mkGrid _ _ hkb' hj, tileOf, tileOf,
    cell_mkGrid s _ hr hk', cell_mkGrid s _ hk' hc]

theorem C18_witness :
    isSquare 4 exA ∧ isSquare 4 exB ∧ 1 ≤ 2 ∧ 1 < 4 / 2 ∧ 0 < 4 / 2 ∧
    [1, 0].Perm (List.range (4 / 2)) ∧ isGrid (4 / 2) 2 exZeroGrid ∧
    cell exZeroGrid 1 0 = mkGrid 2 (fun _ _ => 0) ∧
    ∃ slicesA slicesB out, getSlices exA 2 = .ok slicesA ∧ getSlices exB 2 = .ok slicesB ∧
      runInOrder (mtTask (2 ^ 64) slicesA slicesB 1 0) [1, 0] exZeroGrid = .ok out ∧
      mtBlock (2 ^ 64) slicesA slicesB (4 / 2) 1 0 exZeroGrid = .ok out ∧
      ∀ r c, r < 2 → c < 2 → cell (cell out 1 0) r c =
        wrap (2 ^ 64) (∑ kb ∈ Finset.range (4 / 2), ∑ k ∈ Finset.range 2,
          cell (cell slicesA 1 kb) r k * cell (cell slicesB kb 0) k c) :=
  ⟨by decide, by decide, by decide, by decide, by decide, List.Perm.swap 0 1 [], by decide,
    by decide,
    C18_block_order_independence (2 ^ 64) 4 2 exA exB (by decide) (by decide) (by decide) 1 0
      (by decide) (by decide) [1, 0] (List.Perm.swap 0 1 []) exZeroGrid (by decide)
      (by decide)⟩

/-- C19: a non-dividing tile size never yields a matrix. For every `n ≥ 1`,
every `n` by `n` matrices `A`, `B` and every `s ≥ 1` that does not divide `n`,
`mtMultiply(A, B, s)` faults with an index out of range inside `mergeSlices`.
The merge is reached with the zero matrix and the `n/s` by `n/s` grid of
finished tiles; for `s > n` that grid is empty (the fault is `slices[0][0]`),
otherwise row 0 is merged up to column `(n/s) * s` and the iteration at that
column faults on the tile index `n/s`. -/
theorem C19_non_dividing_tile_faults (m n s : Nat) (A B : matrix) (hn : 1 ≤ n)
    (hA : isSquare n A) (hB : isSquare n B) (hs : 1 ≤ s) (hnd : ¬ s ∣ n) :
    mtMultiply m A B s = .error (.indexOutOfRange .mergeSlices) ∧
    ∃ Z G, mtMultiply m A B s = mergeSlices Z G ∧ isSquare n Z ∧ isGrid (n / s) s G ∧
      (n < s → G = []) ∧
      (s ≤ n → ∃ st, forLoop (mergeSlicesInner G s 0 0) (n / s * s) (Z, 0) = .ok st ∧
        n / s * s < n ∧
        mergeSlicesInner G s 0 0 (n / s * s) st = .error (.indexOutOfRange .mergeSlices)) := by
  have hZ : isSquare n (mkGrid n (fun _ _ => (0 : Int))) := isSquare_mkGrid n _
  have hG : isGrid (n / s) s (mkGrid (n / s) (fun i j => partialTile m s A B (n / s) i j)) :=
    isGrid_mkGrid _ _ _ (fun i j _ _ => isSquare_partialTile m s A B _ i j)
  have hmerge := mtMultiply_eq_merge hA hB m hs
  refine ⟨by rw [hmerge]; exact mergeSlices_fault hZ hG hn hs hnd, _, _, hmerge, hZ, hG,
    fun hlt => ?_, fun hle => ?_⟩
  · rw [Nat.div_eq_of_lt hlt]; rfl
  · have hb : 0 < n / s := Nat.div_pos hle (by omega)
    have h0s : 0 / s < n / s := by simpa using hb
    have hlt : n / s * s < n := by
      have h1 : n / s * s ≤ n := Nat.div_mul_le_self n s
      rcases Nat.eq_or_lt_of_le h1 with h2 | h2
      · exact absurd (Dvd.intro_left _ h2) hnd
      · exact h2
    obtain ⟨st, e1, _, r1⟩ := mergeSlicesInner_run_within hG hs (i := 0) hn h0s _ _
      ((isSquare_iff_Rep n _).1 hZ) (n / s * s) (by omega) (Nat.le_refl _)
    simp only [Nat.zero_mod] at e1
    exact ⟨st, e1, hlt, mergeSlicesInner_fault hG hs hn h0s _ st.1 r1 _ st.2⟩

theorem C19_witness :
    1 ≤ 4 ∧ isSquare 4 exA ∧ isSquare 4 exB ∧ 1 ≤ 3 ∧ ¬ 3 ∣ 4 ∧
    (mtMultiply (2 ^ 64) exA exB 3 = .error (.indexOutOfRange .mergeSlices) ∧
    ∃ Z G, mtMultiply (2 ^ 64) exA exB 3 = mergeSlices Z G ∧ isSquare 4 Z ∧
      isGrid (4 / 3) 3 G ∧ (4 < 3 → G = []) ∧
      (3 ≤ 4 → ∃ st, forLoop (mergeSlicesInner G 3 0 0) (4 / 3 * 3) (Z, 0) = .ok st ∧
        4 / 3 * 3 < 4 ∧
        mergeSlicesInner G 3 0 0 (4 / 3 * 3) st = .error (.indexOutOfRange .mergeSlices))) :=
  ⟨by decide, by decide, by decide, by decide, by decide,
    C19_non_dividing_tile_faults (2 ^ 64) 4 3 exA exB (by decide) (by decide) (by decide)
      (by decide) (by decide)⟩

/-- C20: the two kernels diverge on the empty matrix. For `n = 0` and every
`s ≥ 1`, `stMultiply` returns the empty matrix, whereas `mtMultiply` faults in
`mergeSlices`, whose first statement reads `slices[0][0]` of the empty grid
that `getSlices` returned. -/
theorem C20_empty_matrix_diverges (m s : Nat) (A B : matrix) (hA : isSquare 0 A)
    (hB : isSquare 0 B) (hs : 1 ≤ s) :
    stMultiply m A B = .ok [] ∧
    mtMultiply m A B s = .error (.indexOutOfRange .mergeSlices) ∧
    getSlices [] s = .ok [] ∧
    mergeSlices [] [] = .error (.indexOutOfRange .mergeSlices) ∧
    readCell .mergeSlices ([] : List (List matrix)) 0 0 =
      .error (.indexOutOfRange .mergeSlices) := by
  have hA0 : A = [] := List.length_eq_zero.1 hA.1
  have hB0 : B = [] := List.length_eq_zero.1 hB.1
  have hs' : s ≠ 0 := by omega
  subst hA0 hB0
  refine ⟨rfl, ?_, ?_, rfl, rfl⟩
  · simp [mtMultiply, getSlices, goDiv, hs', forLoop, makeNils, mergeSlices, readCell]
  · simp [getSlices, goDiv, hs', forLoop, makeNils]

theorem C20_witness :
    isSquare 0 [] ∧ isSquare 0 [] ∧ 1 ≤ 2 ∧
    (stMultiply (2 ^ 64) [] [] = .ok [] ∧
    mtMultiply (2 ^ 64) [] [] 2 = .error (.indexOutOfRange .mergeSlices) ∧
    getSlices [] 2 = .ok [] ∧
    mergeSlices [] [] = .error (.indexOutOfRange .mergeSlices) ∧
    readCell .mergeSlices ([] : List (List matrix)) 0 0 =
      .error (.indexOutOfRange .mergeSlices)) :=
  ⟨by decide, by decide, by decide,
    C20_empty_matrix_diverges (2 ^ 64) 2 [] [] (by decide) (by decide) (by decide)⟩

/-- C11, at the failing input `n = 4`, `s = -2`: the validation of `main`
lets the pair through to the multiplication although `s` is not positive. -/
theorem C11_negative_tile_size_passes :
    mainValidation [some 4, some (-2)] = .ok (.multiply 4 (-2)) ∧ ¬ (0 < (-2 : Int)) := by
  decide

/-- C12, at the failing input `n = 4`, `s = 0`: the validation of `main`
faults with a division by zero in `n % s` instead of taking the rejection
branch; for `n = 3`, `s = 0` the test `n < 4` comes first and rejects. -/
theorem C12_zero_tile_size_faults :
    mainValidation [some 4, some 0] = .error (.divideByZero .main) ∧
    mainValidation [some 3, some 0] = .ok (.usageExit 1) := by
  decide

/-- C15: in every state the block loops of `mtMultiply` can reach (any
interleaving of its own steps with the returns of running tasks), with
`n / s` tasks per block: the number of tasks launched and not yet done is at
most `n / s`; the WaitGroup counter is never negative, is at least the number
of running tasks and at most `n / s`; every running task belongs to the block
being launched or waited for; and whenever `mtMultiply` is about to add or to
launch the first task of a block, no task is running and the counter is back
at zero (respectively just raised to `n / s`). -/
theorem C15_waitgroup_bounds_tasks (n s : Nat) (es : List WgEvent) (st : WgState)
    (h : wgRun (n / s) es wgInit = some st) :
    st.running.length ≤ n / s ∧ 0 ≤ st.counter ∧ (st.running.length : Int) ≤ st.counter ∧
    st.counter ≤ ((n / s : Nat) : Int) ∧
    (∀ t ∈ st.running, currentBlock st.pc = some (t.1, t.2.1)) ∧
    (∀ i j, st.pc = .inner i j → st.running = [] ∧ st.counter = 0) ∧
    (∀ i j, st.pc = .spawn i j 0 → st.running = [] ∧ st.counter = ((n / s : Nat) : Int)) := by
  have hinv := wgRun_inv (n / s) es wgInit st (wgInv_init _) h
  obtain ⟨pc, counter, running⟩ := st
  cases pc with
  | outer i =>
    simp only [wgInv] at hinv
    obtain ⟨h1, h2⟩ := hinv
    subst h1 h2
    simp
    positivity
  | inner i j =>
    simp only [wgInv] at hinv
    obtain ⟨h1, h2⟩ := hinv
    subst h1 h2
    simp
    positivity
  | merge =>
    simp only [wgInv] at hinv
    obtain ⟨h1, h2⟩ := hinv
    subst h1 h2
    simp
    positivity
  | spawn i j k =>
    simp only [wgInv] at hinv
    obtain ⟨h1, h2, h3, h4⟩ := hinv
    refine ⟨by simp only; omega, by simp only; omega, by simp only; omega,
      by simp only; omega, fun t ht => ?_, fun i' j' hpc => (by cases hpc), fun i' j' hpc => ?_⟩
    · obtain ⟨e1, e2⟩ := h4 t ht
      simp [currentBlock, e1, e2]
    · cases hpc
      simp only at h3 h2 ⊢
      have : running.length = 0 := by omega
      refine ⟨List.length_eq_zero.1 this, ?_⟩
      rw [h2, this]; simp
  | wait i j =>
    simp only [wgInv] at hinv
    obtain ⟨h1, h2, h3⟩ := hinv
    refine ⟨h2, by simp only; omega, by simp only; omega, by simp only; omega,
      fun t ht => ?_, fun i' j' hpc => (by cases hpc), fun i' j' hpc => (by cases hpc)⟩
    obtain ⟨e1, e2⟩ := h3 t ht
    simp [currentBlock, e1, e2]

theorem C15_witness :
    wgRun (4 / 2) [.mainStep, .mainStep, .mainStep, .mainStep, .taskDone 1] wgInit =
      some { pc := .spawn 0 0 2, counter := 1, running := [(0, 0, 1)] } ∧
    ((([(0, 0, 1)] : List (Nat × Nat × Nat)).length ≤ 4 / 2 ∧ (0 : Int) ≤ 1 ∧
      ((([(0, 0, 1)] : List (Nat × Nat × Nat)).length : Nat) : Int) ≤ 1 ∧
      (1 : Int) ≤ ((4 / 2 : Nat) : Int) ∧
      (∀ t ∈ ([(0, 0, 1)] : List (Nat × Nat × Nat)),
        currentBlock (.spawn 0 0 2) = some (t.1, t.2.1)) ∧
      (∀ i j, MainPc.spawn 0 0 2 = .inner i j →
        ([(0, 0, 1)] : List (Nat × Nat × Nat)) = [] ∧ (1 : Int) = 0) ∧
      (∀ i j, MainPc.spawn 0 0 2 = .spawn i j 0 →
        ([(0, 0, 1)] : List (Nat × Nat × Nat)) = [] ∧ (1 : Int) = ((4 / 2 : Nat) : Int)))) :=
  ⟨by decide,
    C15_waitgroup_bounds_tasks 4 2 [.mainStep, .mainStep, .mainStep, .mainStep, .taskDone 1]
      { pc := .spawn 0 0 2, counter := 1, running := [(0, 0, 1)] } (by decide)⟩

/-- C16, at the failing input `A = B = allOnesMatrix(4)`, `s = 2`, block
`(0, 0)`: the two tasks of the block, each run to completion one after the
other, leave the tile `[[4, 4], [4, 4]]`, which is what two successive
`addMultiply` calls return; when task 1 reads `mtxC[0][0]` between the read and
the write of task 0, both tasks still finish but one update is lost and the
tile is `[[3, 4], [4, 4]]`. -/
theorem C16_lost_update :
    runSchedule (2 ^ 64) serialSchedule ([onesTask, onesTask], zeroTile) =
      .ok ([{ onesTask with iter := 8 }, { onesTask with iter := 8 }], [[4, 4], [4, 4]]) ∧
    runSchedule (2 ^ 64) racySchedule ([onesTask, onesTask], zeroTile) =
      .ok ([{ onesTask with iter := 8 }, { onesTask with iter := 8 }], [[3, 4], [4, 4]]) ∧
    Task.finished { onesTask with iter := 8 } = true ∧
    (addMultiply (2 ^ 64) { mtxC := zeroTile, mtxA := onesTile, mtxB := onesTile } >>=
      fun ops => addMultiply (2 ^ 64) { mtxC := ops.mtxC, mtxA := onesTile, mtxB := onesTile }) =
      .ok { mtxC := [[4, 4], [4, 4]], mtxA := onesTile, mtxB := onesTile } := by
  decide

/-- C13, counterexample: on the text `"1 2"` (one line, two fields)
`stringMatrix` returns no square matrix: the store of the second field into
the row of length 1 is out of range. -/
theorem C13_counterexample :
    ¬ ∃ mtx, stringMatrix exTextLongRow = .ok mtx ∧
      isSquare (splitOn newline exTextLongRow).length mtx := by
  rintro ⟨mtx, h, _⟩
  have hf : stringMatrix exTextLongRow = .error (.indexOutOfRange .stringMatrix) := by decide
  rw [hf] at h
  cases h

/-- C13, amended: for every text whose last piece after `strings.Split(s, "\n")`
is not empty (the text is not empty and does not end with a newline), whose
lines are shorter than the scanner's buffer, and whose lines have at most `n`
fields each, `n` being the number of lines, `stringMatrix` returns an `n` by `n`
matrix; cell `(i, j)` holds the number in field `j` of line `i`, or 0 when the
line has no such field. -/
theorem C13_stringMatrix_square (s : List Char)
    (h1 : (splitOn newline s).getLast? ≠ some [])
    (h2 : ∀ l ∈ splitOn newline s, l.length < maxScanTokenSize)
    (h3 : ∀ l ∈ splitOn newline s,
      (splitOn space (dropCR l)).length ≤ (splitOn newline s).length) :
    ∃ mtx, stringMatrix s = .ok mtx ∧ isSquare (splitOn newline s).length mtx ∧
      ∀ i j, i < (splitOn newline s).length → j < (splitOn newline s).length →
        cell mtx i j = fieldValue (dropCR ((splitOn newline s).getD i [])) j :=
  ⟨_, stringMatrix_eq s h1 h2 h3, isSquare_mkGrid _ _, fun _ _ hi hj => cell_mkGrid _ _ hi hj⟩

theorem C13_witness :
    (splitOn newline exText).getLast? ≠ some [] ∧
    (∀ l ∈ splitOn newline exText, l.length < maxScanTokenSize) ∧
    (∀ l ∈ splitOn newline exText,
      (splitOn space (dropCR l)).length ≤ (splitOn newline exText).length) ∧
    ∃ mtx, stringMatrix exText = .ok mtx ∧ isSquare (splitOn newline exText).length mtx ∧
      ∀ i j, i < (splitOn newline exText).length → j < (splitOn newline exText).length →
        cell mtx i j = fieldValue (dropCR ((splitOn newline exText).getD i [])) j :=
  ⟨by decide, by decide, by decide,
    C13_stringMatrix_square exText (by decide) (by decide) (by decide)⟩

/-- C14, counterexample: for the 1 by 1 matrix `[[10]]` and `col = 1` the
rendering is `"10 "`: the field of the cell is 2 wide, not `col`. -/
theorem C14_counterexample :
    MtxMult.toString 1 [[10]] = .ok [Char.ofNat 49, Char.ofNat 48, space] ∧
    ¬ (∀ i j, i < 1 → j < 1 → (sprintfD 1 (cell [[10]] i j)).length = 1) := by
  refine ⟨by decide, fun h => ?_⟩
  have h0 := h 0 0 (by decide) (by decide)
  revert h0
  decide

/-- C14, amended: for every non-empty `n` by `n` matrix and every column width
`col` that `fmt` accepts (`col < 10000010`), `toString(col)` returns the grid
text: exactly `n` row lines separated by single newlines, no line empty or
containing a newline, the text ending with a space (no trailing newline);
every cell is printed right-aligned, left-padded with spaces, in a field of
width `max col (length of its decimal text)` followed by one space; the field
is `col` wide whenever the decimal text of the value, sign included, has at
most `col` characters. -/
theorem C14_toString_grid (col n : Nat) (mtx : matrix) (hn : 1 ≤ n) (hM : isSquare n mtx)
    (hcol : col < 10000010) :
    MtxMult.toString col mtx = .ok (gridText col n mtx) ∧
    ((List.range n).map (rowText col n mtx)).length = n ∧
    (∀ i, i < n → rowText col n mtx i ≠ [] ∧ ∀ c ∈ rowText col n mtx i, c ≠ newline) ∧
    (gridText col n mtx).getLast? = some space ∧
    ∀ i j, i < n → j < n →
      sprintfCell col (cell mtx i j) =
        List.replicate (col - (decimal (cell mtx i j)).length) space ++
          decimal (cell mtx i j) ++ [space] ∧
      (sprintfD col (cell mtx i j)).length = max col (decimal (cell mtx i j)).length ∧
      ((decimal (cell mtx i j)).length ≤ col → (sprintfD col (cell mtx i j)).length = col) := by
  refine ⟨toString_eq hM hcol hn, by simp,
    fun i _ => ⟨rowText_ne_nil col n mtx i hn, rowText_no_newline col n mtx i⟩, ?_,
    fun i j _ _ => ⟨by rw [sprintfCell_accepted hcol, sprintfD], sprintfD_length col _,
      fun h => ?_⟩⟩
  · obtain ⟨Y, hY⟩ := (gridText_ends col n mtx hn).2
    obtain ⟨l, hl⟩ := rowText_split col n mtx (n - 1) hn
    rw [hY, hl, ← List.append_assoc, List.getLast?_concat]
  · rw [sprintfD_length]
    exact Nat.max_eq_left h

theorem C14_witness :
    1 ≤ 4 ∧ isSquare 4 exA ∧ 4 < 10000010 ∧
    (MtxMult.toString 4 exA = .ok (gridText 4 4 exA) ∧
    ((List.range 4).map (rowText 4 4 exA)).length = 4 ∧
    (∀ i, i < 4 → rowText 4 4 exA i ≠ [] ∧ ∀ c ∈ rowText 4 4 exA i, c ≠ newline) ∧
    (gridText 4 4 exA).getLast? = some space ∧
    ∀ i j, i < 4 → j < 4 →
      sprintfCell 4 (cell exA i j) =
        List.replicate (4 - (decimal (cell exA i j)).length) space ++
          decimal (cell exA i j) ++ [space] ∧
      (sprintfD 4 (cell exA i j)).length = max 4 (decimal (cell exA i j)).length ∧
      ((decimal (cell exA i j)).length ≤ 4 → (sprintfD 4 (cell exA i j)).length = 4)) :=
  ⟨by decide, by decide, by decide,
    C14_toString_grid 4 4 exA (by decide) (by decide) (by decide)⟩

end MtxMult
